import Mathlib

/-!
# Verification of `program::hybrid_cmc` (src/program/hybrid_cmc.cpp)

A shallow embedding of the sweep controller `hybrid_cmc` and the properties
its specification states about it.

Modelling decisions

* The values of `double` quantities (constraint angles, temperatures) are
  rationals and the values of `int` quantities (`sim::time` and the three
  durations) are integers.  The loops come in two layers.  The loops
  `sampling`, …, `hybrid_cmc` add exactly: they are the idealised run, used
  for the properties that do not depend on rounding (order of calls, frame,
  range invariants, divergence) and for termination in exact arithmetic.
  The loops `sampling_m`, …, `hybrid_cmc_m` are the run of the machine: every
  sum of the source passes through the rounding `fl` of the `double` addition
  (lines 125, 130-131, 136-137) or the reduction `wrap` of the `int` addition
  (line 111) of an `Arith`; `ieee` is the arithmetic of IEEE 754 binary64
  (round to nearest, ties to even, with subnormals and overflow to infinity)
  and of a 32-bit two's complement `int` that wraps.  The records hold finite
  values: an infinity only arises from an overflowing sum and is the rational
  `double_infinity`, and no NaN arises from finite inputs.
* The process-wide variables read or written by `hybrid_cmc` form the `Store`.
  Every collaborator call, every diagnostic line and every write of a sweep
  variable appends an `Entry` to a log: the event, the value of the loop
  variable `mat`, and a snapshot of the store right after the event.  The log
  is therefore the complete history of the store during a run.
* `while` loops take a fuel argument; a loop that runs out of fuel yields
  `Outcome.timeout`, carrying the state reached so far.
* `sim::integrate` is not part of the source file.  Its effect on `sim::time`
  is a parameter `integrate : Int → Int → Int` (steps, old time ↦ new time).
-/

namespace program

/-- Per-material constraint record `cmc::cmc_mat[mat]` (fields used by the sweep). -/
structure cmc_material_t where
  constraint_theta : ℚ
  constraint_theta_min : ℚ
  constraint_theta_max : ℚ
  constraint_theta_delta : ℚ
  constraint_phi : ℚ
  constraint_phi_min : ℚ
  constraint_phi_max : ℚ
  constraint_phi_delta : ℚ
  deriving DecidableEq

/-- The process-wide variables that `hybrid_cmc` reads or writes
(`err::check`, `sim::…`, `mp::num_materials`, `cmc::cmc_mat`). -/
structure Store where
  err_check : Bool
  integrator : Int
  num_materials : Nat
  cmc_mat : List cmc_material_t
  temperature : ℚ
  Tmin : ℚ
  Tmax : ℚ
  delta_temperature : ℚ
  time : Int
  equilibration_time : Int
  partial_time : Int
  loop_time : Int
  deriving DecidableEq

/-- Observable events of a run, in source order of the statements that cause them. -/
inductive Event where
  /-- line 66: the "has been called" message on `std::cout` -/
  | cout_called
  /-- line 70: the error message on `std::cerr` -/
  | cerr_integrator
  /-- line 79: the per-material banner on `std::cout` -/
  | cout_material
  /-- line 81: `constraint_theta = constraint_theta_min` -/
  | theta_init
  /-- line 87: `constraint_phi = constraint_phi_min` -/
  | phi_init
  /-- line 93: `sim::CMCMCinit()` -/
  | CMCMCinit
  /-- line 96: `sim::temperature = sim::Tmin` -/
  | temperature_init
  /-- lines 102 and 114: `sim::integrate(n)` -/
  | integrate (n : Int)
  /-- line 105: `stats::mag_m_reset()` -/
  | mag_m_reset
  /-- line 117: `stats::mag_m()` -/
  | mag_m
  /-- line 122: `vout::data()` -/
  | data
  /-- line 125: `sim::temperature += sim::delta_temperature` -/
  | temperature_step
  /-- line 131: `constraint_phi += constraint_phi_delta` -/
  | phi_step
  /-- line 137: `constraint_theta += constraint_theta_delta` -/
  | theta_step
  deriving DecidableEq

/-- One log record: the event, the loop variable `mat` (0 outside the material
loop) and the store right after the event. -/
structure Entry where
  ev : Event
  mat : Nat
  st : Store
  deriving DecidableEq

/-- Machine state of the embedding: the store and the history so far. -/
structure State where
  st : Store
  log : List Entry
  deriving DecidableEq

/-- How a run of (a part of) `hybrid_cmc` ends. -/
inductive Outcome where
  /-- control reached the end of the construct -/
  | returned (s : State)
  /-- the process was terminated by `err::vexit()` -/
  | exited (s : State)
  /-- the fuel of the embedding ran out inside a `while` loop -/
  | timeout (s : State)
  deriving DecidableEq

/-- Sequencing: continue with `k` only after a normal return. -/
def Outcome.bind (o : Outcome) (k : State → Outcome) : Outcome :=
  match o with
  | .returned s => k s
  | .exited s => .exited s
  | .timeout s => .timeout s

/-- Value-initialised record, used for a read outside the table (never
happens after the resize of line 75). -/
def cmc_material_t.zero : cmc_material_t := ⟨0, 0, 0, 0, 0, 0, 0, 0⟩

/-- The read `cmc::cmc_mat[mat]`. -/
def Store.mat (st : Store) (mat : Nat) : cmc_material_t :=
  st.cmc_mat.getD mat cmc_material_t.zero

/-- Append the record of event `ev` to the log. -/
def emit (ev : Event) (mat : Nat) (s : State) : State :=
  { s with log := s.log ++ [⟨ev, mat, s.st⟩] }

/-- The store after the write `cmc::cmc_mat[mat].constraint_theta = v`. -/
def Store.write_theta (st : Store) (mat : Nat) (v : ℚ) : Store :=
  { st with cmc_mat := st.cmc_mat.set mat { st.mat mat with constraint_theta := v } }

/-- The store after the write `cmc::cmc_mat[mat].constraint_phi = v`. -/
def Store.write_phi (st : Store) (mat : Nat) (v : ℚ) : Store :=
  { st with cmc_mat := st.cmc_mat.set mat { st.mat mat with constraint_phi := v } }

/-- The store after the write `sim::temperature = v`. -/
def Store.write_temperature (st : Store) (v : ℚ) : Store :=
  { st with temperature := v }

/-- The store after the write `sim::time = t`. -/
def Store.write_time (st : Store) (t : Int) : Store :=
  { st with time := t }

/-- The write `cmc::cmc_mat[mat].constraint_theta = v`, logged as `ev`. -/
def set_theta (ev : Event) (mat : Nat) (v : ℚ) (s : State) : State :=
  emit ev mat { s with st := s.st.write_theta mat v }

/-- The write `cmc::cmc_mat[mat].constraint_phi = v`, logged as `ev`. -/
def set_phi (ev : Event) (mat : Nat) (v : ℚ) (s : State) : State :=
  emit ev mat { s with st := s.st.write_phi mat v }

/-- The write `sim::temperature = v`, logged as `ev`. -/
def set_temperature (ev : Event) (mat : Nat) (v : ℚ) (s : State) : State :=
  emit ev mat { s with st := s.st.write_temperature v }

/-- Modelled from the spec: `sim::integrate(n)` (not in the source file) advances
the shared `sim::time` cursor and touches no other variable of the store; the
new time is `integrate n time`. -/
def sim_integrate (integrate : Int → Int → Int) (mat : Nat) (n : Int) (s : State) : State :=
  emit (.integrate n) mat { s with st := s.st.write_time (integrate n s.st.time) }

/-- Modelled from the spec: `sim::CMCMCinit()` (not in the source file) resets the
spin configuration and changes no variable of the store. -/
def sim_CMCMCinit (mat : Nat) (s : State) : State := emit .CMCMCinit mat s

/-- Modelled from the spec: `stats::mag_m_reset()` (not in the source file) clears
the running estimate and changes no variable of the store. -/
def stats_mag_m_reset (mat : Nat) (s : State) : State := emit .mag_m_reset mat s

/-- Modelled from the spec: `stats::mag_m()` (not in the source file) updates the
running estimate and changes no variable of the store. -/
def stats_mag_m (mat : Nat) (s : State) : State := emit .mag_m mat s

/-- Modelled from the spec: `vout::data()` (not in the source file) writes the
current snapshot and changes no variable of the store. -/
def vout_data (mat : Nat) (s : State) : State := emit .data mat s

/-- Modelled from the spec: `err::vexit()` (not in the source file) terminates the
process; control never comes back to `hybrid_cmc`. -/
def err_vexit (s : State) : Outcome := .exited s

/-- The call `cmc::cmc_mat.resize(n)`: keep the first `n` records and fill up
with copies of the default-constructed record `ctor`. -/
def resize (l : List cmc_material_t) (n : Nat) (ctor : cmc_material_t) :
    List cmc_material_t :=
  l.take n ++ List.replicate (n - l.length) ctor

/-- The store after line 75, `cmc::cmc_mat.resize(mp::num_materials)`. -/
def Store.resized (st : Store) (ctor : cmc_material_t) : Store :=
  { st with cmc_mat := resize st.cmc_mat st.num_materials ctor }

/-- Lines 111-119: the sampling loop `while(sim::time<sim::loop_time+start_time)`, with
the sum taken exactly (`sampling_m` is the loop with the `int` sum of the machine). -/
def sampling (integrate : Int → Int → Int) (mat : Nat) (start_time : Int) :
    Nat → State → Outcome
  | 0, s => .timeout s
  | fuel + 1, s =>
    if s.st.time < s.st.loop_time + start_time then
      let s1 := sim_integrate integrate mat s.st.partial_time s
      let s2 := stats_mag_m mat s1
      sampling integrate mat start_time fuel s2
    else .returned s

/-- Lines 99-127: the temperature loop `while(sim::temperature<=sim::Tmax)`, with the
sum of line 125 taken exactly (`temperature_loop_m` rounds it). -/
def temperature_loop (integrate : Int → Int → Int) (mat : Nat) : Nat → State → Outcome
  | 0, s => .timeout s
  | fuel + 1, s =>
    if s.st.temperature ≤ s.st.Tmax then
      let s1 := sim_integrate integrate mat s.st.equilibration_time s
      let s2 := stats_mag_m_reset mat s1
      let start_time := s2.st.time
      (sampling integrate mat start_time fuel s2).bind fun s3 =>
        let s4 := vout_data mat s3
        let s5 := set_temperature .temperature_step mat
          (s4.st.temperature + s4.st.delta_temperature) s4
        temperature_loop integrate mat fuel s5
    else .returned s

/-- Lines 90-133: the azimuthal sweep `while(constraint_phi<=constraint_phi_max)`, with
the sum of lines 130-131 taken exactly (`phi_sweep_m` rounds it). -/
def phi_sweep (integrate : Int → Int → Int) (mat : Nat) : Nat → State → Outcome
  | 0, s => .timeout s
  | fuel + 1, s =>
    if (s.st.mat mat).constraint_phi ≤ (s.st.mat mat).constraint_phi_max then
      let s1 := sim_CMCMCinit mat s
      let s2 := set_temperature .temperature_init mat s1.st.Tmin s1
      (temperature_loop integrate mat fuel s2).bind fun s3 =>
        if (s3.st.mat mat).constraint_phi + (s3.st.mat mat).constraint_phi_delta
            > (s3.st.mat mat).constraint_phi_max then .returned s3
        else
          let s4 := set_phi .phi_step mat
            ((s3.st.mat mat).constraint_phi + (s3.st.mat mat).constraint_phi_delta) s3
          phi_sweep integrate mat fuel s4
    else .returned s

/-- Lines 84-139: the rotational sweep `while(constraint_theta<=constraint_theta_max)`,
with the sum of lines 136-137 taken exactly (`theta_sweep_m` rounds it). -/
def theta_sweep (integrate : Int → Int → Int) (mat : Nat) : Nat → State → Outcome
  | 0, s => .timeout s
  | fuel + 1, s =>
    if (s.st.mat mat).constraint_theta ≤ (s.st.mat mat).constraint_theta_max then
      let s1 := set_phi .phi_init mat (s.st.mat mat).constraint_phi_min s
      (phi_sweep integrate mat fuel s1).bind fun s2 =>
        if (s2.st.mat mat).constraint_theta + (s2.st.mat mat).constraint_theta_delta
            > (s2.st.mat mat).constraint_theta_max then .returned s2
        else
          let s3 := set_theta .theta_step mat
            ((s2.st.mat mat).constraint_theta + (s2.st.mat mat).constraint_theta_delta) s2
          theta_sweep integrate mat fuel s3
    else .returned s

/-- Lines 78-141: the material loop `for (int mat=0;mat<mp::num_materials;mat++)`,
entered with the loop variable equal to `mat`. -/
def material_loop (integrate : Int → Int → Int) : Nat → Nat → State → Outcome
  | 0, _, s => .timeout s
  | fuel + 1, mat, s =>
    if mat < s.st.num_materials then
      let s1 := emit .cout_material mat s
      let s2 := set_theta .theta_init mat (s1.st.mat mat).constraint_theta_min s1
      (theta_sweep integrate mat fuel s2).bind fun s3 =>
        material_loop integrate fuel (mat + 1) s3
    else .returned s

/-- Lines 63-143: `void hybrid_cmc()`, in exact arithmetic (`hybrid_cmc_m` is the run
with the arithmetic of the machine). -/
def hybrid_cmc (integrate : Int → Int → Int) (ctor : cmc_material_t) (fuel : Nat)
    (s : State) : Outcome :=
  let s0 := if s.st.err_check = true then emit .cout_called 0 s else s
  if s0.st.integrator ≠ 4 then
    err_vexit (emit .cerr_integrator 0 s0)
  else
    let s1 : State := { s0 with st := s0.st.resized ctor }
    material_loop integrate fuel 0 s1

/-! ## Closed-form iteration counts -/

/-- Number of values `lo, lo + d, lo + 2 d, …` that are `≤ hi` (for `d > 0`). -/
def sweep_count (lo hi d : ℚ) : Nat :=
  if lo ≤ hi then ⌊(hi - lo) / d⌋.toNat + 1 else 0

/-- The values `lo, lo + d, …, lo + (n-1) d`. -/
def progression (lo d : ℚ) (n : Nat) : List ℚ :=
  (List.range n).map fun (k : Nat) => lo + (k : ℚ) * d

/-- Number of sampling steps of length `p` needed to cover a window of `r` time
units: `⌈r / p⌉`, and none for an empty window. -/
def sample_count (r p : Int) : Nat := ⌈(r : ℚ) / (p : ℚ)⌉.toNat

/-! ## Unrolled semantics

The same statements as in the loops above, but with every `while` loop replaced
by a fixed number of repetitions of its body.  A block maps a store to the store
it leaves and the log entries it produces. -/

/-- Result of a block: the store it leaves and the entries it produced. -/
abbrev Run := Store × List Entry

/-- Sequencing of blocks. -/
def Run.next (r : Run) (f : Store → Run) : Run := ((f r.1).1, r.2 ++ (f r.1).2)

/-- The state reached from `s` by a block. -/
def State.run (s : State) (f : Store → Run) : State := ⟨(f s.st).1, s.log ++ (f s.st).2⟩

/-- A block that only records event `ev` on the store `st`. -/
def record (ev : Event) (mat : Nat) (st : Store) : Run := (st, [⟨ev, mat, st⟩])

/-- A block `f` repeated `n` times. -/
def iterate_u (f : Store → Run) : Nat → Store → Run
  | 0, st => (st, [])
  | n + 1, st => (f st).next (iterate_u f n)

/-- A sweep of `n` values: `body` at every value, `step` between two values. -/
def sweep_u (body step : Store → Run) : Nat → Store → Run
  | 0, st => (st, [])
  | n + 1, st => (body st).next fun st1 =>
      if n = 0 then (st1, []) else (step st1).next (sweep_u body step n)

/-- One sampling step (lines 114 and 117). -/
def sample_step_u (integrate : Int → Int → Int) (mat : Nat) (st : Store) : Run :=
  (record (.integrate st.partial_time) mat
      (st.write_time (integrate st.partial_time st.time))).next
    (record .mag_m mat)

/-- One pass through the body of the temperature loop (lines 102-125). -/
def temperature_iter_u (integrate : Int → Int → Int) (mat : Nat) (st : Store) : Run :=
  (record (.integrate st.equilibration_time) mat
      (st.write_time (integrate st.equilibration_time st.time))).next fun st1 =>
  (record .mag_m_reset mat st1).next fun st2 =>
  (iterate_u (sample_step_u integrate mat)
      (sample_count st2.loop_time st2.partial_time) st2).next fun st3 =>
  (record .data mat st3).next fun st4 =>
  record .temperature_step mat
    (st4.write_temperature (st4.temperature + st4.delta_temperature))

/-- The temperature loop, unrolled. -/
def temperature_loop_u (integrate : Int → Int → Int) (mat : Nat) (st : Store) : Run :=
  iterate_u (temperature_iter_u integrate mat)
    (sweep_count st.temperature st.Tmax st.delta_temperature) st

/-- Lines 93-127: the statements of the phi sweep at one value of phi. -/
def phi_body_u (integrate : Int → Int → Int) (mat : Nat) (st : Store) : Run :=
  (record .CMCMCinit mat st).next fun st1 =>
  (record .temperature_init mat (st1.write_temperature st1.Tmin)).next
    (temperature_loop_u integrate mat)

/-- Line 131: the increment of phi. -/
def phi_step_u (mat : Nat) (st : Store) : Run :=
  record .phi_step mat
    (st.write_phi mat ((st.mat mat).constraint_phi + (st.mat mat).constraint_phi_delta))

/-- The phi sweep, unrolled. -/
def phi_sweep_u (integrate : Int → Int → Int) (mat : Nat) (st : Store) : Run :=
  sweep_u (phi_body_u integrate mat) (phi_step_u mat)
    (sweep_count (st.mat mat).constraint_phi (st.mat mat).constraint_phi_max
      (st.mat mat).constraint_phi_delta) st

/-- Lines 87-133: the statements of the theta sweep at one value of theta. -/
def theta_body_u (integrate : Int → Int → Int) (mat : Nat) (st : Store) : Run :=
  (record .phi_init mat (st.write_phi mat (st.mat mat).constraint_phi_min)).next
    (phi_sweep_u integrate mat)

/-- Line 137: the increment of theta. -/
def theta_step_u (mat : Nat) (st : Store) : Run :=
  record .theta_step mat
    (st.write_theta mat ((st.mat mat).constraint_theta + (st.mat mat).constraint_theta_delta))

/-- The theta sweep, unrolled. -/
def theta_sweep_u (integrate : Int → Int → Int) (mat : Nat) (st : Store) : Run :=
  sweep_u (theta_body_u integrate mat) (theta_step_u mat)
    (sweep_count (st.mat mat).constraint_theta (st.mat mat).constraint_theta_max
      (st.mat mat).constraint_theta_delta) st

/-- Lines 79-139: the body of the material loop for material `mat`. -/
def material_body_u (integrate : Int → Int → Int) (mat : Nat) (st : Store) : Run :=
  (record .cout_material mat st).next fun st1 =>
  (record .theta_init mat (st1.write_theta mat (st1.mat mat).constraint_theta_min)).next
    (theta_sweep_u integrate mat)

/-- The material loop for the `k` materials `mat, mat + 1, …`. -/
def material_loop_u (integrate : Int → Int → Int) : Nat → Nat → Store → Run
  | 0, _, st => (st, [])
  | k + 1, mat, st => (material_body_u integrate mat st).next
      (material_loop_u integrate k (mat + 1))

/-- Lines 66 and 75: the optional message and the resize that precede the material loop. -/
def prologue_u (ctor : cmc_material_t) (st : Store) : Run :=
  (st.resized ctor, if st.err_check = true then [⟨.cout_called, 0, st⟩] else [])

/-- The whole of `hybrid_cmc` for the required integrator, unrolled. -/
def hybrid_cmc_u (integrate : Int → Int → Int) (ctor : cmc_material_t) (st : Store) : Run :=
  (prologue_u ctor st).next fun st1 => material_loop_u integrate st1.num_materials 0 st1

/-- Exact advance: `sim::integrate(n)` moves `sim::time` forward by exactly `n`. -/
def ExactAdvance (integrate : Int → Int → Int) : Prop := ∀ n t, integrate n t = t + n

/-! ## Views of a store

A view forgets the variables a loop level may write, so that "the block leaves
everything else alone" is an equation between views. -/

/-- The scalar configuration of a store: everything but `sim::time`,
`sim::temperature` and the constraint table. -/
def Store.base (st : Store) : Store :=
  { st with time := 0, temperature := 0, cmc_mat := [] }

/-- A store seen through `e`: its scalar configuration, the size of the
constraint table, and every record of the table after `e` blanked some fields. -/
def Store.view (e : Nat → cmc_material_t → cmc_material_t) (st : Store) :
    Store × Nat × (Nat → cmc_material_t) :=
  (st.base, st.cmc_mat.length, fun i => e i (st.mat i))

/-- Blank nothing: the view kept by the temperature loop. -/
def keep_all : Nat → cmc_material_t → cmc_material_t := fun _ m => m

/-- Blank `constraint_phi` of material `mat`: the view kept by its phi sweep. -/
def blank_phi (mat : Nat) : Nat → cmc_material_t → cmc_material_t :=
  fun i m => if i = mat then { m with constraint_phi := 0 } else m

/-- Blank both angles of material `mat`: the view kept by its theta sweep. -/
def blank_angles (mat : Nat) : Nat → cmc_material_t → cmc_material_t :=
  fun i m => if i = mat then { m with constraint_theta := 0, constraint_phi := 0 } else m

/-- Blank both angles of every material: the view kept by the whole run. -/
def blank_all : Nat → cmc_material_t → cmc_material_t :=
  fun _ m => { m with constraint_theta := 0, constraint_phi := 0 }

/-- The steps of a store are positive: the precondition under which every loop
of `hybrid_cmc` ends (given exact advance). -/
structure Store.Positive (st : Store) : Prop where
  partial_time : 0 < st.partial_time
  delta_temperature : 0 < st.delta_temperature
  theta_delta : ∀ i, i < st.cmc_mat.length → 0 < (st.mat i).constraint_theta_delta
  phi_delta : ∀ i, i < st.cmc_mat.length → 0 < (st.mat i).constraint_phi_delta

/-! ## What the log shows of the sweep -/

/-- The constraint angle theta of the material an entry belongs to. -/
def Entry.theta (e : Entry) : ℚ := (e.st.mat e.mat).constraint_theta

/-- The constraint angle phi of the material an entry belongs to. -/
def Entry.phi (e : Entry) : ℚ := (e.st.mat e.mat).constraint_phi

/-- The sweep coordinates an entry of the log was recorded at. -/
inductive Key where
  /-- a phi sweep starts (line 87) for material `mat` at `theta` -/
  | theta_visit (mat : Nat) (theta : ℚ)
  /-- the spins are re-initialised (line 93) for material `mat` at `(theta, phi)` -/
  | phi_visit (mat : Nat) (theta phi : ℚ)
  /-- a collaborator call of the temperature loop (lines 102-122) -/
  | call (ev : Event) (mat : Nat) (theta phi temperature : ℚ)
  deriving DecidableEq

/-- The key of a log entry; the writes and the diagnostics have none. -/
def Entry.key (e : Entry) : Option Key :=
  match e.ev with
  | .phi_init => some (.theta_visit e.mat e.theta)
  | .CMCMCinit => some (.phi_visit e.mat e.theta e.phi)
  | .integrate n => some (.call (.integrate n) e.mat e.theta e.phi e.st.temperature)
  | .mag_m_reset => some (.call .mag_m_reset e.mat e.theta e.phi e.st.temperature)
  | .mag_m => some (.call .mag_m e.mat e.theta e.phi e.st.temperature)
  | .data => some (.call .data e.mat e.theta e.phi e.st.temperature)
  | _ => none

/-- The keys of a log, in order. -/
def keys (l : List Entry) : List Key := l.filterMap Entry.key

/-- Angles `theta_min, theta_min + theta_delta, …` that are `≤ theta_max`. -/
def visited_thetas (m : cmc_material_t) : List ℚ :=
  progression m.constraint_theta_min m.constraint_theta_delta
    (sweep_count m.constraint_theta_min m.constraint_theta_max m.constraint_theta_delta)

/-- The sampling steps of one temperature value: `k` pairs integrate, update. -/
def sampling_calls (c : Store) (k : Nat) : List Event :=
  (List.replicate k [Event.integrate c.partial_time, Event.mag_m]).flatten

/-- Collaborator calls of one temperature value with `k` sampling steps:
equilibration, reset, `k` pairs integrate/update, output. -/
def iteration_calls (c : Store) (k : Nat) : List Event :=
  [Event.integrate c.equilibration_time, Event.mag_m_reset] ++ sampling_calls c k ++ [Event.data]

/-- Keys of one temperature loop at `(mat, theta, phi)`. -/
def temperature_keys (c : Store) (mat : Nat) (theta phi : ℚ) (temps : List ℚ) : List Key :=
  temps.flatMap fun T =>
    (iteration_calls c (sample_count c.loop_time c.partial_time)).map fun ev =>
      Key.call ev mat theta phi T

/-- An integrator that advances `sim::time` by exactly the number of steps asked for. -/
def exact_integrate : Int → Int → Int := fun n t => t + n

/-- A material with `theta_min = 0`, `theta_max = 10`, `theta_delta = 7` and the
single azimuthal angle 0. -/
def material_0_10_7 : cmc_material_t :=
  { constraint_theta := 0, constraint_theta_min := 0, constraint_theta_max := 10,
    constraint_theta_delta := 7, constraint_phi := 0, constraint_phi_min := 0,
    constraint_phi_max := 0, constraint_phi_delta := 1 }

/-- One material `material_0_10_7`, the single temperature 0, unit durations. -/
def state_0_10_7 : State :=
  { st := { err_check := false, integrator := 4, num_materials := 1,
            cmc_mat := [material_0_10_7], temperature := 0, Tmin := 0, Tmax := 0,
            delta_temperature := 1, time := 0, equilibration_time := 1,
            partial_time := 1, loop_time := 1 },
    log := [] }

/-- A material with the single angle pair `(0, 0)`: `theta_min = theta_max = 0`,
`phi_min = phi_max = 0`, unit angle steps. -/
def material_single : cmc_material_t :=
  { constraint_theta := 0, constraint_theta_min := 0, constraint_theta_max := 0,
    constraint_theta_delta := 1, constraint_phi := 0, constraint_phi_min := 0,
    constraint_phi_max := 0, constraint_phi_delta := 1 }

/-- The scenario `num_materials = 1`, one angle pair, `Tmin = 0`, `Tmax = 100`,
`delta_temperature = 50`; sampling window 3 in steps of 2. -/
def state_scenario : State :=
  { st := { err_check := false, integrator := 4, num_materials := 1,
            cmc_mat := [material_single], temperature := 0, Tmin := 0, Tmax := 100,
            delta_temperature := 50, time := 0, equilibration_time := 1,
            partial_time := 2, loop_time := 3 },
    log := [] }

/-- The scenario state with a wrong integrator kind (3 instead of 4). -/
def state_wrong_integrator : State :=
  { state_scenario with st := { state_scenario.st with integrator := 3 } }

/-- The `sim::CMCMCinit()` calls of a log (line 93), each with the (material,
theta, phi) current at the call. -/
def cmcmc_inits (l : List Entry) : List (Nat × ℚ × ℚ) :=
  l.filterMap fun e =>
    if e.ev = Event.CMCMCinit then some (e.mat, e.theta, e.phi) else none

/-- Key-level reading of `cmcmc_inits`. -/
def Key.init_of : Key → Option (Nat × ℚ × ℚ)
  | .phi_visit m th ph => some (m, th, ph)
  | _ => none

/-- The state an outcome carries: the final state of a run that returned or
exited, the state reached so far when the fuel ran out. -/
def Outcome.state : Outcome → State
  | .returned s => s
  | .exited s => s
  | .timeout s => s

/-- Events recorded between the assignment `theta = theta_min` (line 81) and the
end of the theta sweep of a material (line 139). -/
def Event.in_theta_sweep : Event → Bool
  | .cout_called | .cerr_integrator | .cout_material => false
  | _ => true

/-- Events recorded between the assignment `phi = phi_min` (line 87) and the end
of a phi sweep (line 133). -/
def Event.in_phi_sweep : Event → Bool
  | .cout_called | .cerr_integrator | .cout_material | .theta_init | .theta_step => false
  | _ => true

/-- Events recorded between the assignment `temperature = Tmin` (line 96) and the
end of a temperature loop (line 127). -/
def Event.in_temperature_loop : Event → Bool
  | .temperature_init | .integrate _ | .mag_m_reset | .mag_m | .data | .temperature_step => true
  | _ => false

/-- The range invariant of a sweep variable `x` with bounds `lo`, `hi` and step `d`. -/
def within (lo hi d x : ℚ) : Prop := lo ≤ x ∧ x ≤ hi + d

/-- `constraint_theta` of a record is within its range. -/
def cmc_material_t.theta_within (m : cmc_material_t) : Prop :=
  within m.constraint_theta_min m.constraint_theta_max m.constraint_theta_delta
    m.constraint_theta

/-- `constraint_phi` of a record is within its range. -/
def cmc_material_t.phi_within (m : cmc_material_t) : Prop :=
  within m.constraint_phi_min m.constraint_phi_max m.constraint_phi_delta m.constraint_phi

/-- `sim::temperature` of a store is within its range. -/
def Store.temperature_within (st : Store) : Prop :=
  within st.Tmin st.Tmax st.delta_temperature st.temperature

/-- A sweep range is sound: the step is not negative and the start does not lie
more than one step above the end. -/
def sound_range (lo hi d : ℚ) : Prop := 0 ≤ d ∧ lo ≤ hi + d

/-- The range invariants at one log entry: whenever the entry lies inside a
sweep whose range is sound, the variable of that sweep is within its range. -/
structure Entry.InRange (e : Entry) : Prop where
  theta : e.ev.in_theta_sweep = true →
    sound_range (e.st.mat e.mat).constraint_theta_min (e.st.mat e.mat).constraint_theta_max
      (e.st.mat e.mat).constraint_theta_delta → (e.st.mat e.mat).theta_within
  phi : e.ev.in_phi_sweep = true →
    sound_range (e.st.mat e.mat).constraint_phi_min (e.st.mat e.mat).constraint_phi_max
      (e.st.mat e.mat).constraint_phi_delta → (e.st.mat e.mat).phi_within
  temperature : e.ev.in_temperature_loop = true →
    sound_range e.st.Tmin e.st.Tmax e.st.delta_temperature → e.st.temperature_within

/-- A part of a run started in `s` ended in `o`: the log only grew, every new
entry satisfies `Q`, and after a normal return the store satisfies `Post`. -/
def Steps (Q : Entry → Prop) (Post : Store → Prop) (s : State) (o : Outcome) : Prop :=
  ∃ L, o.state.log = s.log ++ L ∧ (∀ e ∈ L, Q e) ∧ ∀ s1, o = .returned s1 → Post s1.st

/-- What holds at every entry of a run whose material loop started on the store
`r`: the configuration and all sweep bounds are those of `r`, and the range
invariants hold. -/
structure Entry.Good (r : Store) (e : Entry) : Prop where
  view : e.st.view blank_all = r.view blank_all
  range : e.InRange

/-- Invariant of the theta sweep of material `mat`, relative to the store `r`. -/
structure ThetaInv (r : Store) (mat : Nat) (st : Store) : Prop where
  view : st.view blank_all = r.view blank_all
  idx : mat < st.cmc_mat.length
  theta : sound_range (st.mat mat).constraint_theta_min (st.mat mat).constraint_theta_max
      (st.mat mat).constraint_theta_delta → (st.mat mat).theta_within

/-- Invariant of a phi sweep of material `mat`, relative to the store `r`. -/
structure PhiInv (r : Store) (mat : Nat) (st : Store) : Prop where
  outer : ThetaInv r mat st
  phi : sound_range (st.mat mat).constraint_phi_min (st.mat mat).constraint_phi_max
      (st.mat mat).constraint_phi_delta → (st.mat mat).phi_within

/-- Invariant of a temperature loop of material `mat`, relative to the store `r`. -/
structure TempInv (r : Store) (mat : Nat) (st : Store) : Prop where
  outer : PhiInv r mat st
  temperature : sound_range st.Tmin st.Tmax st.delta_temperature → st.temperature_within

/-- A material whose theta range is empty by more than one step
(`theta_min = 10`, `theta_max = 0`, `theta_delta = 1`). -/
def material_theta_empty : cmc_material_t :=
  { constraint_theta := 0, constraint_theta_min := 10, constraint_theta_max := 0,
    constraint_theta_delta := 1, constraint_phi := 0, constraint_phi_min := 0,
    constraint_phi_max := 0, constraint_phi_delta := 1 }

/-- A material whose phi range is empty by more than one step
(`phi_min = 10`, `phi_max = 0`, `phi_delta = 1`). -/
def material_phi_empty : cmc_material_t :=
  { constraint_theta := 0, constraint_theta_min := 0, constraint_theta_max := 0,
    constraint_theta_delta := 1, constraint_phi := 0, constraint_phi_min := 10,
    constraint_phi_max := 0, constraint_phi_delta := 1 }

/-- A material whose theta step is negative (`theta_delta = -1`). -/
def material_theta_backward : cmc_material_t :=
  { constraint_theta := 0, constraint_theta_min := 0, constraint_theta_max := 0,
    constraint_theta_delta := -1, constraint_phi := 0, constraint_phi_min := 0,
    constraint_phi_max := 0, constraint_phi_delta := 1 }

/-- A material whose phi step is negative (`phi_delta = -1`). -/
def material_phi_backward : cmc_material_t :=
  { constraint_theta := 0, constraint_theta_min := 0, constraint_theta_max := 0,
    constraint_theta_delta := 1, constraint_phi := 0, constraint_phi_min := 0,
    constraint_phi_max := 0, constraint_phi_delta := -1 }

/-- A state with the given constraint table, integrator 4, an empty temperature
range within one step (`Tmin = 1`, `Tmax = 0`, `delta_temperature = 1`) and unit
durations. -/
def state_of_table (table : List cmc_material_t) : State :=
  { st := { err_check := false, integrator := 4, num_materials := table.length,
            cmc_mat := table, temperature := 0, Tmin := 1, Tmax := 0,
            delta_temperature := 1, time := 0, equilibration_time := 1,
            partial_time := 1, loop_time := 1 },
    log := [] }

/-- A relation between the store a block starts on and its result that holds of the
empty block and is kept by sequencing. -/
structure Composable (R : Store → Run → Prop) : Prop where
  nil : ∀ st, R st (st, [])
  next : ∀ st (r : Run) (f : Store → Run), R st r → R r.1 (f r.1) → R st (r.next f)

/-- The store after the last entry of `L`, or `st` when `L` is empty. -/
def last_store (st : Store) : List Entry → Store
  | [] => st
  | e :: L => last_store e.st L

/-- Every entry of `L` stands in relation `P` to the store its event ran on: the
snapshot of the entry before it, or `st` for the first entry. -/
def Linked (P : Store → Entry → Prop) : Store → List Entry → Prop
  | _, [] => True
  | st, e :: L => P st e ∧ Linked P e.st L

/-- The event of entry `e`, run on the store `prev`, wrote nothing but `sim::time`,
`sim::temperature` and the two angles of the material `e.mat`. -/
def Entry.writes_own (prev : Store) (e : Entry) : Prop :=
  e.st.view (blank_angles e.mat) = prev.view (blank_angles e.mat)

/-- The event of entry `e`, run on the store `prev`, left the record of every
material other than `e.mat` as it was. -/
def Entry.leaves_others (prev : Store) (e : Entry) : Prop :=
  ∀ i, i ≠ e.mat → e.st.mat i = prev.mat i

/-- Stores `a` and `b` have the same run configuration and the same sweep bounds. -/
structure Store.same_config (a b : Store) : Prop where
  Tmin : a.Tmin = b.Tmin
  Tmax : a.Tmax = b.Tmax
  delta_temperature : a.delta_temperature = b.delta_temperature
  equilibration_time : a.equilibration_time = b.equilibration_time
  partial_time : a.partial_time = b.partial_time
  loop_time : a.loop_time = b.loop_time
  num_materials : a.num_materials = b.num_materials
  integrator : a.integrator = b.integrator
  table_size : a.cmc_mat.length = b.cmc_mat.length
  theta_min : ∀ i, (a.mat i).constraint_theta_min = (b.mat i).constraint_theta_min
  theta_max : ∀ i, (a.mat i).constraint_theta_max = (b.mat i).constraint_theta_max
  theta_delta : ∀ i, (a.mat i).constraint_theta_delta = (b.mat i).constraint_theta_delta
  phi_min : ∀ i, (a.mat i).constraint_phi_min = (b.mat i).constraint_phi_min
  phi_max : ∀ i, (a.mat i).constraint_phi_max = (b.mat i).constraint_phi_max
  phi_delta : ∀ i, (a.mat i).constraint_phi_delta = (b.mat i).constraint_phi_delta

/-- A part of a run started in `s` ended in `o`, seen write by write: the log only
grew, every new entry stands in relation `P` to the store its event ran on, and the
store of the state reached is the snapshot of the last entry. -/
def Trace (P : Store → Entry → Prop) (s : State) (o : Outcome) : Prop :=
  ∃ L, o.state.log = s.log ++ L ∧ Linked P s.st L ∧ o.state.st = last_store s.st L

/-! ## Sampling windows -/

/-- The store with `sim::time` moved by the constant `c`. -/
def Store.shift (c : Int) (st : Store) : Store := { st with time := st.time + c }

/-- The log entry with the time of its snapshot moved by `c`. -/
def Entry.shift (c : Int) (e : Entry) : Entry := { e with st := e.st.shift c }

/-- The state with `sim::time` moved by `c`, now and in every snapshot of the log. -/
def State.shift (c : Int) (s : State) : State := ⟨s.st.shift c, s.log.map (Entry.shift c)⟩

/-- The outcome with the clock of its state moved by `c`. -/
def Outcome.shift (c : Int) : Outcome → Outcome
  | .returned s => .returned (s.shift c)
  | .exited s => .exited (s.shift c)
  | .timeout s => .timeout (s.shift c)

/-! ## A sweep that cannot end -/

/-- The arithmetic of the machine: `fl x` is the `double` that an addition with the
exact result `x` delivers, `wrap n` the `int` that an addition with the exact result
`n` delivers. -/
structure Arith where
  fl : ℚ → ℚ
  wrap : Int → Int

/-- Number of binary digits of `n` (0 for `n = 0`), for `n < 2 ^ fuel`. -/
def bit_length : Nat → Nat → Nat
  | 0, _ => 0
  | fuel + 1, n => if n = 0 then 0 else bit_length fuel (n / 2) + 1

/-- The integer nearest to `r`, the even one of the two when `r` lies half way. -/
def round_half_even (r : ℚ) : Int :=
  if r - (⌊r⌋ : ℚ) < 1 / 2 then ⌊r⌋
  else if 1 / 2 < r - (⌊r⌋ : ℚ) then ⌊r⌋ + 1
  else if ⌊r⌋ % 2 = 0 then ⌊r⌋ else ⌊r⌋ + 1

/-- The product `x * 2 ^ e` for an integer exponent `e`. -/
def scale2 (x : ℚ) (e : Int) : ℚ :=
  if 0 ≤ e then x * ((2 ^ e.toNat : Nat) : ℚ) else x / ((2 ^ (-e).toNat : Nat) : ℚ)

/-- Exponent `e` of the spacing `2 ^ e` of the `double`s around `x`: the one with
`2 ^ 52 ≤ |x| / 2 ^ e < 2 ^ 53`, and `-1074` in the subnormal range. -/
def ulp_exponent (x : ℚ) : Int :=
  max (if scale2 |x| (-((bit_length 2200 x.num.natAbs : Int)
            - (bit_length 2200 x.den : Int) - 52)) < 4503599627370496
        then (bit_length 2200 x.num.natAbs : Int) - (bit_length 2200 x.den : Int) - 52 - 1
        else (bit_length 2200 x.num.natAbs : Int) - (bit_length 2200 x.den : Int) - 52)
    (-1074)

/-- The rational `x` rounded to 53 significant binary digits (to nearest, ties to
even), with the spacing of the subnormal range below `2 ^ (-1022)` and no bound on the
exponent above. -/
def round_to_double (x : ℚ) : ℚ :=
  scale2 (round_half_even (scale2 x (-(ulp_exponent x)))) (ulp_exponent x)

/-- Stand-in for the `double` `+∞`: a rational above every finite `double` and above
every sum of two finite `double`s (these are below `2 ^ 1025`). -/
def double_infinity : ℚ := ((2 ^ 1025 : Nat) : ℚ)

/-- IEEE 754 binary64 rounding to nearest, ties to even: the `double` that an addition
with the exact result `x` delivers.  A result that rounds to `2 ^ 1024` or beyond in
magnitude overflows to `±∞`, which is `±double_infinity` here. -/
def binary64 (x : ℚ) : ℚ :=
  if |round_to_double x| < ((2 ^ 1024 : Nat) : ℚ) then round_to_double x
  else if 0 ≤ x then double_infinity else -double_infinity

/-- The value of a 32-bit two's complement `int` that holds `n` modulo `2 ^ 32`: what
an `int` addition with the exact result `n` leaves in the register (the C++ standard
leaves signed overflow undefined; this is the result of the hardware addition). -/
def int32 (n : Int) : Int := (n + 2147483648) % 4294967296 - 2147483648

/-- The arithmetic of `double` and a 32-bit `int`. -/
def ieee : Arith := ⟨binary64, int32⟩

/-- Lines 111-119, `while(sim::time<sim::loop_time+start_time)`, with the `int` sum
of line 111 delivered by `A.wrap`. -/
def sampling_m (A : Arith) (integrate : Int → Int → Int) (mat : Nat) (start_time : Int) :
    Nat → State → Outcome
  | 0, s => .timeout s
  | fuel + 1, s =>
    if s.st.time < A.wrap (s.st.loop_time + start_time) then
      let s1 := sim_integrate integrate mat s.st.partial_time s
      let s2 := stats_mag_m mat s1
      sampling_m A integrate mat start_time fuel s2
    else .returned s

/-- The sums the code computes between the event of entry `e` and its next write are
exact under `A`: after `phi = phi_min` (line 87) the sum `theta + theta_delta` of
lines 136-137, after `temperature = Tmin` (line 96) the sum `phi + phi_delta` of
lines 130-131, after `vout::data()` (line 122) the sum of line 125, and after
`stats::mag_m_reset()` (line 105) the sum `loop_time + start_time` of line 111. -/
def Entry.exact_sums (A : Arith) (e : Entry) : Prop :=
  (e.ev = Event.phi_init →
    A.fl ((e.st.mat e.mat).constraint_theta + (e.st.mat e.mat).constraint_theta_delta)
      = (e.st.mat e.mat).constraint_theta + (e.st.mat e.mat).constraint_theta_delta) ∧
  (e.ev = Event.temperature_init →
    A.fl ((e.st.mat e.mat).constraint_phi + (e.st.mat e.mat).constraint_phi_delta)
      = (e.st.mat e.mat).constraint_phi + (e.st.mat e.mat).constraint_phi_delta) ∧
  (e.ev = Event.data →
    A.fl (e.st.temperature + e.st.delta_temperature)
      = e.st.temperature + e.st.delta_temperature) ∧
  (e.ev = Event.mag_m_reset →
    A.wrap (e.st.loop_time + e.st.time) = e.st.loop_time + e.st.time)

instance Entry.exact_sums_decidable (A : Arith) (e : Entry) : Decidable (e.exact_sums A) := by
  unfold Entry.exact_sums
  infer_instance

/-- The scenario state at `sim::time = 2147483000` with `loop_time = 1000` and
`partial_time = 100`: the `int` sum `loop_time + start_time` passes `INT_MAX`. -/
def state_late_start : State :=
  { st := { err_check := false, integrator := 4, num_materials := 1,
            cmc_mat := [material_single], temperature := 0, Tmin := 0, Tmax := 100,
            delta_temperature := 50, time := 2147483000, equilibration_time := 0,
            partial_time := 100, loop_time := 1000 },
    log := [] }

theorem sweep_count_of_lt {lo hi : ℚ} (d : ℚ) (h : hi < lo) : sweep_count lo hi d = 0 := by
  simp [sweep_count, not_le.mpr h]

theorem sweep_count_last {lo hi d : ℚ} (hd : 0 < d) (h : lo ≤ hi) (h2 : hi < lo + d) :
    sweep_count lo hi d = 1 := by
  have h0 : ⌊(hi - lo) / d⌋ = 0 := by
    rw [Int.floor_eq_iff]
    constructor
    · simpa using div_nonneg (sub_nonneg.mpr h) hd.le
    · rw [div_lt_iff₀ hd]; simp; linarith
  simp [sweep_count, h, h0]

theorem sweep_count_succ {lo hi d : ℚ} (hd : 0 < d) (h : lo + d ≤ hi) :
    sweep_count lo hi d = sweep_count (lo + d) hi d + 1 := by
  have h1 : lo ≤ hi := by linarith
  have e : (hi - lo) / d = (hi - (lo + d)) / d + 1 := by
    field_simp; ring
  have hn : 0 ≤ ⌊(hi - (lo + d)) / d⌋ := Int.floor_nonneg.mpr (div_nonneg (by linarith) hd.le)
  simp only [sweep_count, h1, h, if_true]
  rw [e, Int.floor_add_one, Int.toNat_add hn (by norm_num)]
  simp

theorem sample_count_of_nonpos {r p : Int} (hp : 0 < p) (h : r ≤ 0) : sample_count r p = 0 := by
  have hp' : (0 : ℚ) < p := by exact_mod_cast hp
  have hr : (r : ℚ) ≤ 0 := by exact_mod_cast h
  have : ⌈(r : ℚ) / (p : ℚ)⌉ ≤ 0 := by
    rw [Int.ceil_le]; simpa using div_nonpos_of_nonpos_of_nonneg hr hp'.le
  simp [sample_count, Int.toNat_eq_zero.mpr this]

theorem sample_count_succ {r p : Int} (hp : 0 < p) (h : 0 < r) :
    sample_count r p = sample_count (r - p) p + 1 := by
  have hp' : (0 : ℚ) < p := by exact_mod_cast hp
  have hr : (0 : ℚ) < r := by exact_mod_cast h
  have e : ((r - p : Int) : ℚ) / (p : ℚ) = (r : ℚ) / (p : ℚ) - 1 := by
    push_cast; field_simp
  have h1 : 0 < ⌈(r : ℚ) / (p : ℚ)⌉ := Int.ceil_pos.mpr (div_pos hr hp')
  simp only [sample_count]
  rw [e, Int.ceil_sub_one]
  omega

theorem sweep_count_step {lo hi d : ℚ} (hd : 0 < d) (h : lo ≤ hi) :
    sweep_count lo hi d = sweep_count (lo + d) hi d + 1 := by
  by_cases h2 : lo + d ≤ hi
  · exact sweep_count_succ hd h2
  · rw [sweep_count_last hd h (not_le.mp h2), sweep_count_of_lt d (not_le.mp h2)]

theorem sweep_count_eq_zero {lo hi d : ℚ} (h : sweep_count lo hi d = 0) : hi < lo := by
  by_contra hle
  simp [sweep_count, not_lt.mp hle] at h

theorem sweep_count_pos {lo hi d : ℚ} (h : lo ≤ hi) : 0 < sweep_count lo hi d := by
  simp [sweep_count, h]

theorem sample_count_eq_zero {r p : Int} (hp : 0 < p) (h : sample_count r p = 0) : r ≤ 0 := by
  by_contra hr
  rw [sample_count_succ hp (not_le.mp hr)] at h
  exact Nat.succ_ne_zero _ h

/-! ## Blocks and states -/

@[simp] theorem State.run_st (s : State) (f : Store → Run) : (s.run f).st = (f s.st).1 := rfl

theorem State.run_run (s : State) (f g : Store → Run) :
    (s.run f).run g = s.run fun st => (f st).next g := by
  simp [State.run, Run.next, List.append_assoc]

theorem State.run_nil (s : State) : (s.run fun st => (st, [])) = s := by
  cases s; simp [State.run]

theorem State.run_iterate_zero (s : State) (f : Store → Run) : s.run (iterate_u f 0) = s := by
  cases s; simp [State.run, iterate_u]

theorem emit_eq_run (ev : Event) (mat : Nat) (s : State) :
    emit ev mat s = s.run (record ev mat) := rfl

@[simp] theorem Run.next_fst (r : Run) (f : Store → Run) : (r.next f).1 = (f r.1).1 := rfl

@[simp] theorem Run.next_snd (r : Run) (f : Store → Run) :
    (r.next f).2 = r.2 ++ (f r.1).2 := rfl

@[simp] theorem record_fst (ev : Event) (mat : Nat) (st : Store) : (record ev mat st).1 = st := rfl

@[simp] theorem record_snd (ev : Event) (mat : Nat) (st : Store) :
    (record ev mat st).2 = [⟨ev, mat, st⟩] := rfl

@[simp] theorem iterate_u_zero (f : Store → Run) (st : Store) : iterate_u f 0 st = (st, []) := rfl

theorem iterate_u_succ (f : Store → Run) (n : Nat) (st : Store) :
    iterate_u f (n + 1) st = (f st).next (iterate_u f n) := rfl

@[simp] theorem sweep_u_zero (body step : Store → Run) (st : Store) :
    sweep_u body step 0 st = (st, []) := rfl

theorem sweep_u_one (body step : Store → Run) (st : Store) :
    sweep_u body step 1 st = body st := by
  simp [sweep_u, Run.next]

theorem sweep_u_succ_succ (body step : Store → Run) (n : Nat) (st : Store) :
    sweep_u body step (n + 2) st
      = (body st).next fun st1 => (step st1).next (sweep_u body step (n + 1)) := by
  simp [sweep_u]


/-! ## Views are preserved by the block combinators -/

section views
variable {α : Type} (V : Store → α)

theorem next_view {r : Run} {f : Store → Run} (hf : ∀ st, V (f st).1 = V st) :
    V (r.next f).1 = V r.1 := hf r.1

theorem iterate_u_view {f : Store → Run} (hf : ∀ st, V (f st).1 = V st) (n : Nat) (st : Store) :
    V (iterate_u f n st).1 = V st := by
  induction n generalizing st with
  | zero => rfl
  | succ n ih =>
    show V (iterate_u f n (f st).1).1 = V st
    rw [ih, hf]

theorem sweep_u_view {body step : Store → Run} (hb : ∀ st, V (body st).1 = V st)
    (hs : ∀ st, V (step st).1 = V st) (n : Nat) (st : Store) :
    V (sweep_u body step n st).1 = V st := by
  induction n generalizing st with
  | zero => rfl
  | succ n ih =>
    cases n with
    | zero => rw [sweep_u_one]; exact hb st
    | succ n =>
      rw [sweep_u_succ_succ]
      show V (sweep_u body step (n + 1) (step (body st).1).1).1 = V st
      rw [ih, hs, hb]

end views

theorem view_weaken {e : Nat → cmc_material_t → cmc_material_t}
    (e2 : Nat → cmc_material_t → cmc_material_t) {a b : Store}
    (h : a.view e = b.view e) :
    a.view (fun i m => e2 i (e i m)) = b.view (fun i m => e2 i (e i m)) := by
  have h1 : a.base = b.base := congrArg (fun v => v.1) h
  have h2 : a.cmc_mat.length = b.cmc_mat.length := congrArg (fun v => v.2.1) h
  have h3 : (fun i => e i (a.mat i)) = fun i => e i (b.mat i) := congrArg (fun v => v.2.2) h
  have h4 : ∀ i, e i (a.mat i) = e i (b.mat i) := fun i => congrFun h3 i
  simp [Store.view, h1, h2, h4]

theorem view_phi_of_all {mat : Nat} {a b : Store} (h : a.view keep_all = b.view keep_all) :
    a.view (blank_phi mat) = b.view (blank_phi mat) :=
  view_weaken (blank_phi mat) h

theorem view_angles_of_phi {mat : Nat} {a b : Store}
    (h : a.view (blank_phi mat) = b.view (blank_phi mat)) :
    a.view (blank_angles mat) = b.view (blank_angles mat) := by
  have e : blank_angles mat = fun i m => blank_angles mat i (blank_phi mat i m) := by
    funext i m; by_cases hi : i = mat <;> simp [blank_angles, blank_phi, hi]
  rw [e]; exact view_weaken (blank_angles mat) h

theorem view_cfg_of_angles {mat : Nat} {a b : Store}
    (h : a.view (blank_angles mat) = b.view (blank_angles mat)) :
    a.view blank_all = b.view blank_all := by
  have e : blank_all = fun i m => blank_all i (blank_angles mat i m) := by
    funext i m; by_cases hi : i = mat <;> simp [blank_all, blank_angles, hi]
  rw [e]; exact view_weaken blank_all h

/-! ### What a view equation says about the fields -/

theorem view_base {e : Nat → cmc_material_t → cmc_material_t} {a b : Store}
    (h : a.view e = b.view e) : a.base = b.base := congrArg (fun v => v.1) h

theorem view_length {e : Nat → cmc_material_t → cmc_material_t} {a b : Store}
    (h : a.view e = b.view e) : a.cmc_mat.length = b.cmc_mat.length :=
  congrArg (fun v => v.2.1) h

theorem view_rec {e : Nat → cmc_material_t → cmc_material_t} {a b : Store}
    (h : a.view e = b.view e) (i : Nat) : e i (a.mat i) = e i (b.mat i) :=
  congrFun (congrArg (fun v => v.2.2) h) i

theorem base_Tmin {a b : Store} (h : a.base = b.base) : a.Tmin = b.Tmin := by
  have e := congrArg Store.Tmin h; exact e

theorem base_Tmax {a b : Store} (h : a.base = b.base) : a.Tmax = b.Tmax := by
  have e := congrArg Store.Tmax h; exact e

theorem base_delta_temperature {a b : Store} (h : a.base = b.base) :
    a.delta_temperature = b.delta_temperature := by
  have e := congrArg Store.delta_temperature h; exact e

theorem base_equilibration_time {a b : Store} (h : a.base = b.base) :
    a.equilibration_time = b.equilibration_time := by
  have e := congrArg Store.equilibration_time h; exact e

theorem base_partial_time {a b : Store} (h : a.base = b.base) :
    a.partial_time = b.partial_time := by
  have e := congrArg Store.partial_time h; exact e

theorem base_loop_time {a b : Store} (h : a.base = b.base) : a.loop_time = b.loop_time := by
  have e := congrArg Store.loop_time h; exact e

theorem base_num_materials {a b : Store} (h : a.base = b.base) :
    a.num_materials = b.num_materials := by
  have e := congrArg Store.num_materials h; exact e

theorem base_integrator {a b : Store} (h : a.base = b.base) : a.integrator = b.integrator := by
  have e := congrArg Store.integrator h; exact e

theorem base_err_check {a b : Store} (h : a.base = b.base) : a.err_check = b.err_check := by
  have e := congrArg Store.err_check h; exact e

theorem view_all_mat {a b : Store} (h : a.view keep_all = b.view keep_all) (i : Nat) :
    a.mat i = b.mat i := view_rec h i

/-! ## Reads and writes of the constraint table -/

theorem mat_set (l : List cmc_material_t) (mat i : Nat) (m : cmc_material_t) :
    (l.set mat m).getD i cmc_material_t.zero
      = if mat = i ∧ mat < l.length then m else l.getD i cmc_material_t.zero := by
  simp only [List.getD_eq_getElem?_getD, List.getElem?_set]
  by_cases h1 : mat = i
  · subst h1
    by_cases h2 : mat < l.length
    · simp [h2]
    · simp [h2, List.getElem?_eq_none (not_lt.mp h2)]
  · simp [h1]

theorem mat_write_phi (st : Store) (mat i : Nat) (v : ℚ) :
    (st.write_phi mat v).mat i
      = if mat = i ∧ mat < st.cmc_mat.length then { st.mat mat with constraint_phi := v }
        else st.mat i := by
  simp only [Store.write_phi, Store.mat, mat_set]

theorem mat_write_theta (st : Store) (mat i : Nat) (v : ℚ) :
    (st.write_theta mat v).mat i
      = if mat = i ∧ mat < st.cmc_mat.length then { st.mat mat with constraint_theta := v }
        else st.mat i := by
  simp only [Store.write_theta, Store.mat, mat_set]

theorem mat_write_phi_self {st : Store} {mat : Nat} (h : mat < st.cmc_mat.length) (v : ℚ) :
    (st.write_phi mat v).mat mat = { st.mat mat with constraint_phi := v } := by
  simp [mat_write_phi, h]

theorem mat_write_theta_self {st : Store} {mat : Nat} (h : mat < st.cmc_mat.length) (v : ℚ) :
    (st.write_theta mat v).mat mat = { st.mat mat with constraint_theta := v } := by
  simp [mat_write_theta, h]

theorem length_write_phi (st : Store) (mat : Nat) (v : ℚ) :
    (st.write_phi mat v).cmc_mat.length = st.cmc_mat.length := by
  simp [Store.write_phi]

theorem length_write_theta (st : Store) (mat : Nat) (v : ℚ) :
    (st.write_theta mat v).cmc_mat.length = st.cmc_mat.length := by
  simp [Store.write_theta]

theorem view_write_phi (st : Store) (mat : Nat) (v : ℚ) :
    (st.write_phi mat v).view (blank_phi mat) = st.view (blank_phi mat) := by
  have h : ∀ i, blank_phi mat i ((st.write_phi mat v).mat i) = blank_phi mat i (st.mat i) := by
    intro i
    rw [mat_write_phi]
    by_cases h1 : mat = i ∧ mat < st.cmc_mat.length
    · obtain ⟨rfl, _⟩ := h1
      simp [blank_phi, *]
    · simp [h1]
  simp only [Store.view, length_write_phi, h]
  rfl

theorem view_write_theta (st : Store) (mat : Nat) (v : ℚ) :
    (st.write_theta mat v).view (blank_angles mat) = st.view (blank_angles mat) := by
  have h : ∀ i, blank_angles mat i ((st.write_theta mat v).mat i)
      = blank_angles mat i (st.mat i) := by
    intro i
    rw [mat_write_theta]
    by_cases h1 : mat = i ∧ mat < st.cmc_mat.length
    · obtain ⟨rfl, _⟩ := h1
      simp [blank_angles, *]
    · simp [h1]
  simp only [Store.view, length_write_theta, h]
  rfl

/-! ### Fields that a view of one material's sweep keeps -/

theorem view_phi_theta {mat : Nat} {a b : Store}
    (h : a.view (blank_phi mat) = b.view (blank_phi mat)) (i : Nat) :
    (a.mat i).constraint_theta = (b.mat i).constraint_theta := by
  have e := congrArg cmc_material_t.constraint_theta (view_rec h i)
  by_cases hi : i = mat <;> simpa [blank_phi, hi] using e

theorem view_cfg_theta_min {a b : Store} (h : a.view blank_all = b.view blank_all) (i : Nat) :
    (a.mat i).constraint_theta_min = (b.mat i).constraint_theta_min := by
  have e := congrArg cmc_material_t.constraint_theta_min (view_rec h i)
  simpa [blank_all] using e

theorem view_cfg_theta_max {a b : Store} (h : a.view blank_all = b.view blank_all) (i : Nat) :
    (a.mat i).constraint_theta_max = (b.mat i).constraint_theta_max := by
  have e := congrArg cmc_material_t.constraint_theta_max (view_rec h i)
  simpa [blank_all] using e

theorem view_cfg_theta_delta {a b : Store} (h : a.view blank_all = b.view blank_all) (i : Nat) :
    (a.mat i).constraint_theta_delta = (b.mat i).constraint_theta_delta := by
  have e := congrArg cmc_material_t.constraint_theta_delta (view_rec h i)
  simpa [blank_all] using e

theorem view_cfg_phi_min {a b : Store} (h : a.view blank_all = b.view blank_all) (i : Nat) :
    (a.mat i).constraint_phi_min = (b.mat i).constraint_phi_min := by
  have e := congrArg cmc_material_t.constraint_phi_min (view_rec h i)
  simpa [blank_all] using e

theorem view_cfg_phi_max {a b : Store} (h : a.view blank_all = b.view blank_all) (i : Nat) :
    (a.mat i).constraint_phi_max = (b.mat i).constraint_phi_max := by
  have e := congrArg cmc_material_t.constraint_phi_max (view_rec h i)
  simpa [blank_all] using e

theorem view_cfg_phi_delta {a b : Store} (h : a.view blank_all = b.view blank_all) (i : Nat) :
    (a.mat i).constraint_phi_delta = (b.mat i).constraint_phi_delta := by
  have e := congrArg cmc_material_t.constraint_phi_delta (view_rec h i)
  simpa [blank_all] using e

theorem view_angles_other {mat : Nat} {a b : Store}
    (h : a.view (blank_angles mat) = b.view (blank_angles mat)) {i : Nat} (hi : i ≠ mat) :
    a.mat i = b.mat i := by
  have e := view_rec h i
  simpa [blank_angles, hi] using e

theorem view_cfg_of_phi {mat : Nat} {a b : Store}
    (h : a.view (blank_phi mat) = b.view (blank_phi mat)) :
    a.view blank_all = b.view blank_all :=
  view_cfg_of_angles (view_angles_of_phi h)

theorem view_cfg_of_all {a b : Store} (h : a.view keep_all = b.view keep_all) :
    a.view blank_all = b.view blank_all :=
  view_weaken blank_all h

/-! ## The sampling loop -/

theorem sample_step_eq_run (integrate : Int → Int → Int) (mat : Nat) (s : State) :
    stats_mag_m mat (sim_integrate integrate mat s.st.partial_time s)
      = s.run (sample_step_u integrate mat) := by
  simp [stats_mag_m, sim_integrate, emit, State.run, sample_step_u, Run.next, record]

theorem sample_step_u_fst (integrate : Int → Int → Int) (mat : Nat) (st : Store) :
    (sample_step_u integrate mat st).1 = st.write_time (integrate st.partial_time st.time) := rfl

theorem sampling_unrolled {integrate : Int → Int → Int} (hI : ExactAdvance integrate)
    (mat : Nat) (start : Int) :
    ∀ (c : Nat) (s : State), 0 < s.st.partial_time →
      sample_count (s.st.loop_time + start - s.st.time) s.st.partial_time = c →
      ∀ fuel, c < fuel →
        sampling integrate mat start fuel s
          = .returned (s.run (iterate_u (sample_step_u integrate mat) c)) := by
  intro c
  induction c with
  | zero =>
    intro s hp hc fuel hf
    obtain ⟨f, rfl⟩ : ∃ f, fuel = f + 1 := ⟨fuel - 1, by omega⟩
    have hr := sample_count_eq_zero hp hc
    have : ¬ s.st.time < s.st.loop_time + start := by omega
    simp [sampling, this, State.run_iterate_zero]
  | succ c ih =>
    intro s hp hc fuel hf
    obtain ⟨f, rfl⟩ : ∃ f, fuel = f + 1 := ⟨fuel - 1, by omega⟩
    have hr : 0 < s.st.loop_time + start - s.st.time := by
      by_contra h
      rw [sample_count_of_nonpos hp (not_lt.mp h)] at hc
      exact Nat.succ_ne_zero _ hc.symm
    have hlt : s.st.time < s.st.loop_time + start := by omega
    rw [sample_count_succ hp hr] at hc
    simp only [sampling, hlt, if_true, sample_step_eq_run]
    rw [ih (s.run (sample_step_u integrate mat)) (by simpa [sample_step_u_fst] using hp)
      (by
        have e : s.st.loop_time + start - (s.st.time + s.st.partial_time)
            = s.st.loop_time + start - s.st.time - s.st.partial_time := by ring
        simp only [State.run_st, sample_step_u_fst, Store.write_time]
        rw [hI, e]; omega) f (by omega)]
    rw [State.run_run]
    rfl

/-! ## The temperature loop -/

theorem view_write_time (e : Nat → cmc_material_t → cmc_material_t) (st : Store) (t : Int) :
    (st.write_time t).view e = st.view e := rfl

theorem view_write_temperature (e : Nat → cmc_material_t → cmc_material_t) (st : Store)
    (v : ℚ) : (st.write_temperature v).view e = st.view e := rfl

theorem sampling_u_fst (integrate : Int → Int → Int) (mat : Nat) (k : Nat) (st : Store) :
    (iterate_u (sample_step_u integrate mat) k st).1
      = st.write_time ((integrate st.partial_time)^[k] st.time) := by
  induction k generalizing st with
  | zero => rfl
  | succ k ih =>
    rw [iterate_u_succ, Run.next_fst, ih]
    rfl

theorem temperature_iter_u_fst (integrate : Int → Int → Int) (mat : Nat) (st : Store) :
    (temperature_iter_u integrate mat st).1
      = (st.write_time ((integrate st.partial_time)^[sample_count st.loop_time st.partial_time]
            (integrate st.equilibration_time st.time))).write_temperature
          (st.temperature + st.delta_temperature) := by
  simp only [temperature_iter_u, Run.next_fst, record_fst, sampling_u_fst]
  rfl

theorem temperature_iter_u_view (integrate : Int → Int → Int) (mat : Nat)
    (e : Nat → cmc_material_t → cmc_material_t) (st : Store) :
    (temperature_iter_u integrate mat st).1.view e = st.view e := by
  rw [temperature_iter_u_fst]; rfl

theorem temperature_iter_u_temperature (integrate : Int → Int → Int) (mat : Nat) (st : Store) :
    (temperature_iter_u integrate mat st).1.temperature
      = st.temperature + st.delta_temperature := by
  rw [temperature_iter_u_fst]; rfl

theorem temperature_iter_eq_run (integrate : Int → Int → Int) (mat : Nat) (s : State) :
    set_temperature .temperature_step mat
        ((vout_data mat ((stats_mag_m_reset mat
            (sim_integrate integrate mat s.st.equilibration_time s)).run
          (iterate_u (sample_step_u integrate mat)
            (sample_count s.st.loop_time s.st.partial_time)))).st.temperature
          + (vout_data mat ((stats_mag_m_reset mat
            (sim_integrate integrate mat s.st.equilibration_time s)).run
          (iterate_u (sample_step_u integrate mat)
            (sample_count s.st.loop_time s.st.partial_time)))).st.delta_temperature)
        (vout_data mat ((stats_mag_m_reset mat
            (sim_integrate integrate mat s.st.equilibration_time s)).run
          (iterate_u (sample_step_u integrate mat)
            (sample_count s.st.loop_time s.st.partial_time))))
      = s.run (temperature_iter_u integrate mat) := by
  simp [set_temperature, vout_data, stats_mag_m_reset, sim_integrate, emit, State.run,
    temperature_iter_u, Run.next, record, Store.write_time]

theorem temperature_loop_unrolled {integrate : Int → Int → Int} (hI : ExactAdvance integrate)
    (mat : Nat) :
    ∀ (c : Nat) (s : State), 0 < s.st.partial_time → 0 < s.st.delta_temperature →
      sweep_count s.st.temperature s.st.Tmax s.st.delta_temperature = c →
      ∃ N, ∀ fuel, N ≤ fuel →
        temperature_loop integrate mat fuel s
          = .returned (s.run (iterate_u (temperature_iter_u integrate mat) c)) := by
  intro c
  induction c with
  | zero =>
    intro s _ _ hc
    refine ⟨1, fun fuel hf => ?_⟩
    obtain ⟨f, rfl⟩ : ∃ f, fuel = f + 1 := ⟨fuel - 1, by omega⟩
    have : ¬ s.st.temperature ≤ s.st.Tmax := not_le.mpr (sweep_count_eq_zero hc)
    simp [temperature_loop, this, State.run_iterate_zero]
  | succ c ih =>
    intro s hp hd hc
    have hle : s.st.temperature ≤ s.st.Tmax := by
      by_contra h
      rw [sweep_count_of_lt _ (not_le.mp h)] at hc
      exact Nat.succ_ne_zero _ hc.symm
    rw [sweep_count_step hd hle] at hc
    have hv := temperature_iter_u_view integrate mat keep_all s.st
    have hb := view_base hv
    obtain ⟨N, hN⟩ := ih (s.run (temperature_iter_u integrate mat))
      (by rw [State.run_st, base_partial_time hb]; exact hp)
      (by rw [State.run_st, base_delta_temperature hb]; exact hd)
      (by
        rw [State.run_st, temperature_iter_u_temperature, base_Tmax hb,
          base_delta_temperature hb]
        omega)
    refine ⟨max N (sample_count s.st.loop_time s.st.partial_time + 1) + 1, fun fuel hf => ?_⟩
    obtain ⟨f, rfl⟩ : ∃ f, fuel = f + 1 := ⟨fuel - 1, by omega⟩
    have hf1 : N ≤ f := by omega
    have hf2 : sample_count s.st.loop_time s.st.partial_time < f := by omega
    have hs := sampling_unrolled hI mat
      (stats_mag_m_reset mat (sim_integrate integrate mat s.st.equilibration_time s)).st.time
      (sample_count s.st.loop_time s.st.partial_time)
      (stats_mag_m_reset mat (sim_integrate integrate mat s.st.equilibration_time s))
      hp (by
        show sample_count (s.st.loop_time + _ - _) s.st.partial_time = _
        rw [add_sub_cancel_right]) f hf2
    simp only [temperature_loop, hle, if_true, hs, Outcome.bind]
    rw [temperature_iter_eq_run, hN f hf1, State.run_run]
    rfl

theorem temperature_loop_returns {integrate : Int → Int → Int} (hI : ExactAdvance integrate)
    (mat : Nat) (s : State) (hp : 0 < s.st.partial_time) (hd : 0 < s.st.delta_temperature) :
    ∃ N, ∀ fuel, N ≤ fuel →
      temperature_loop integrate mat fuel s
        = .returned (s.run (temperature_loop_u integrate mat)) :=
  temperature_loop_unrolled hI mat _ s hp hd rfl

theorem temperature_loop_u_view (integrate : Int → Int → Int) (mat : Nat)
    (e : Nat → cmc_material_t → cmc_material_t) (st : Store) :
    (temperature_loop_u integrate mat st).1.view e = st.view e :=
  iterate_u_view (fun st => st.view e) (temperature_iter_u_view integrate mat e) _ st

/-! ## The phi sweep -/

theorem Store.Positive.of_view {a b : Store} (h : a.view blank_all = b.view blank_all)
    (ha : a.Positive) : b.Positive := by
  have hb := view_base h
  have hl := view_length h
  refine ⟨?_, ?_, ?_, ?_⟩
  · rw [← base_partial_time hb]; exact ha.partial_time
  · rw [← base_delta_temperature hb]; exact ha.delta_temperature
  · intro i hi; rw [← view_cfg_theta_delta h i]; exact ha.theta_delta i (hl ▸ hi)
  · intro i hi; rw [← view_cfg_phi_delta h i]; exact ha.phi_delta i (hl ▸ hi)

theorem State.run_sweep_zero (s : State) (body step : Store → Run) :
    s.run (sweep_u body step 0) = s := by
  cases s; simp [State.run, sweep_u]

theorem State.run_sweep_one (s : State) (body step : Store → Run) :
    s.run (sweep_u body step 1) = s.run body := by
  simp [State.run, sweep_u_one]

theorem State.run_sweep_succ_succ (s : State) (body step : Store → Run) (n : Nat) :
    s.run (sweep_u body step (n + 2))
      = ((s.run body).run step).run (sweep_u body step (n + 1)) := by
  simp [State.run, sweep_u_succ_succ, List.append_assoc]

theorem State.run_iterate_succ (s : State) (f : Store → Run) (n : Nat) :
    s.run (iterate_u f (n + 1)) = (s.run f).run (iterate_u f n) := by
  simp [State.run, iterate_u_succ, List.append_assoc]

theorem phi_body_u_view (integrate : Int → Int → Int) (mat : Nat)
    (e : Nat → cmc_material_t → cmc_material_t) (st : Store) :
    (phi_body_u integrate mat st).1.view e = st.view e := by
  simp only [phi_body_u, Run.next_fst, record_fst, temperature_loop_u_view]
  rfl

theorem phi_step_u_view (mat : Nat) (st : Store) :
    (phi_step_u mat st).1.view (blank_phi mat) = st.view (blank_phi mat) := by
  simp only [phi_step_u, record_fst, view_write_phi]

theorem phi_body_eq_run (integrate : Int → Int → Int) (mat : Nat) (s : State) :
    (set_temperature .temperature_init mat (sim_CMCMCinit mat s).st.Tmin
        (sim_CMCMCinit mat s)).run (temperature_loop_u integrate mat)
      = s.run (phi_body_u integrate mat) := by
  simp [set_temperature, sim_CMCMCinit, emit, State.run, phi_body_u, Run.next, record]

theorem phi_step_eq_run (mat : Nat) (s : State) :
    set_phi .phi_step mat
        ((s.st.mat mat).constraint_phi + (s.st.mat mat).constraint_phi_delta) s
      = s.run (phi_step_u mat) := by
  simp [set_phi, emit, State.run, phi_step_u, record]

theorem phi_sweep_unrolled {integrate : Int → Int → Int} (hI : ExactAdvance integrate)
    (mat : Nat) :
    ∀ (c : Nat) (s : State), 0 < s.st.partial_time → 0 < s.st.delta_temperature →
      0 < (s.st.mat mat).constraint_phi_delta → mat < s.st.cmc_mat.length →
      sweep_count (s.st.mat mat).constraint_phi (s.st.mat mat).constraint_phi_max
        (s.st.mat mat).constraint_phi_delta = c →
      ∃ N, ∀ fuel, N ≤ fuel →
        phi_sweep integrate mat fuel s
          = .returned (s.run (sweep_u (phi_body_u integrate mat) (phi_step_u mat) c)) := by
  intro c
  induction c with
  | zero =>
    intro s _ _ _ _ hc
    refine ⟨1, fun fuel hf => ?_⟩
    obtain ⟨f, rfl⟩ : ∃ f, fuel = f + 1 := ⟨fuel - 1, by omega⟩
    have : ¬ (s.st.mat mat).constraint_phi ≤ (s.st.mat mat).constraint_phi_max :=
      not_le.mpr (sweep_count_eq_zero hc)
    simp [phi_sweep, this, State.run_sweep_zero]
  | succ c ih =>
    intro s hp hT hd hm hc
    have hle : (s.st.mat mat).constraint_phi ≤ (s.st.mat mat).constraint_phi_max := by
      by_contra h
      rw [sweep_count_of_lt _ (not_le.mp h)] at hc
      exact Nat.succ_ne_zero _ hc.symm
    obtain ⟨N1, hN1⟩ := temperature_loop_returns hI mat
      (set_temperature .temperature_init mat (sim_CMCMCinit mat s).st.Tmin (sim_CMCMCinit mat s))
      hp hT
    have hv := phi_body_u_view integrate mat keep_all s.st
    have hmat : (phi_body_u integrate mat s.st).1.mat mat = s.st.mat mat := view_all_mat hv mat
    by_cases hbr : (s.st.mat mat).constraint_phi + (s.st.mat mat).constraint_phi_delta
        > (s.st.mat mat).constraint_phi_max
    · have hc0 : c = 0 := by
        rw [sweep_count_last hd hle hbr] at hc; omega
      subst hc0
      refine ⟨N1 + 1, fun fuel hf => ?_⟩
      obtain ⟨f, rfl⟩ : ∃ f, fuel = f + 1 := ⟨fuel - 1, by omega⟩
      simp only [phi_sweep, hle, if_true, hN1 f (by omega), Outcome.bind, phi_body_eq_run,
        State.run_st, hmat, hbr, Nat.zero_add, State.run_sweep_one]
    · have hle2 := not_lt.mp hbr
      rw [sweep_count_succ hd hle2] at hc
      have hvs := phi_step_u_view mat (phi_body_u integrate mat s.st).1
      have hcfg : ((s.run (phi_body_u integrate mat)).run (phi_step_u mat)).st.view blank_all
          = s.st.view blank_all := by
        rw [State.run_st, State.run_st, view_cfg_of_phi hvs, view_cfg_of_all hv]
      have hm1 : mat < (phi_body_u integrate mat s.st).1.cmc_mat.length := by
        rw [view_length hv]; exact hm
      have hm2 : mat < ((s.run (phi_body_u integrate mat)).run (phi_step_u mat)).st.cmc_mat.length := by
        rw [view_length hcfg]; exact hm
      have hphi : (((s.run (phi_body_u integrate mat)).run (phi_step_u mat)).st.mat mat)
          = { s.st.mat mat with constraint_phi :=
              (s.st.mat mat).constraint_phi + (s.st.mat mat).constraint_phi_delta } := by
        rw [State.run_st, State.run_st]
        simp only [phi_step_u, record_fst]
        rw [mat_write_phi_self hm1, hmat]
      obtain ⟨N2, hN2⟩ := ih ((s.run (phi_body_u integrate mat)).run (phi_step_u mat))
        (by rw [base_partial_time (view_base hcfg)]; exact hp)
        (by rw [base_delta_temperature (view_base hcfg)]; exact hT)
        (by rw [hphi]; exact hd) hm2 (by rw [hphi]; simpa using hc)
      refine ⟨max N1 N2 + 1, fun fuel hf => ?_⟩
      obtain ⟨f, rfl⟩ : ∃ f, fuel = f + 1 := ⟨fuel - 1, by omega⟩
      obtain ⟨c', rfl⟩ : ∃ c', c = c' + 1 := by
        have := sweep_count_pos (d := (s.st.mat mat).constraint_phi_delta) hle2
        exact ⟨c - 1, by omega⟩
      simp only [phi_sweep, hle, if_true, hN1 f (by omega), Outcome.bind, phi_body_eq_run,
        State.run_st, hmat, hbr, if_false]
      have e := phi_step_eq_run mat (s.run (phi_body_u integrate mat))
      simp only [State.run_st, hmat] at e
      rw [e, hN2 f (by omega), State.run_sweep_succ_succ]

theorem phi_sweep_returns {integrate : Int → Int → Int} (hI : ExactAdvance integrate)
    (mat : Nat) (s : State) (hp : 0 < s.st.partial_time) (hT : 0 < s.st.delta_temperature)
    (hd : 0 < (s.st.mat mat).constraint_phi_delta) (hm : mat < s.st.cmc_mat.length) :
    ∃ N, ∀ fuel, N ≤ fuel →
      phi_sweep integrate mat fuel s = .returned (s.run (phi_sweep_u integrate mat)) :=
  phi_sweep_unrolled hI mat _ s hp hT hd hm rfl

theorem phi_sweep_u_view (integrate : Int → Int → Int) (mat : Nat) (st : Store) :
    (phi_sweep_u integrate mat st).1.view (blank_phi mat) = st.view (blank_phi mat) :=
  sweep_u_view (fun st => st.view (blank_phi mat))
    (fun st => view_phi_of_all (phi_body_u_view integrate mat keep_all st))
    (phi_step_u_view mat) _ st

/-! ## The theta sweep -/

theorem theta_body_u_view (integrate : Int → Int → Int) (mat : Nat) (st : Store) :
    (theta_body_u integrate mat st).1.view (blank_phi mat) = st.view (blank_phi mat) := by
  simp only [theta_body_u, Run.next_fst, record_fst, phi_sweep_u_view, view_write_phi]

theorem theta_step_u_view (mat : Nat) (st : Store) :
    (theta_step_u mat st).1.view (blank_angles mat) = st.view (blank_angles mat) := by
  simp only [theta_step_u, record_fst, view_write_theta]

theorem theta_body_eq_run (integrate : Int → Int → Int) (mat : Nat) (s : State) :
    (set_phi .phi_init mat (s.st.mat mat).constraint_phi_min s).run (phi_sweep_u integrate mat)
      = s.run (theta_body_u integrate mat) := by
  simp [set_phi, emit, State.run, theta_body_u, Run.next, record]

theorem theta_step_eq_run (mat : Nat) (s : State) :
    set_theta .theta_step mat
        ((s.st.mat mat).constraint_theta + (s.st.mat mat).constraint_theta_delta) s
      = s.run (theta_step_u mat) := by
  simp [set_theta, emit, State.run, theta_step_u, record]

theorem Store.Positive.write_phi {st : Store} (h : st.Positive) (mat : Nat) (v : ℚ) :
    (st.write_phi mat v).Positive :=
  Store.Positive.of_view (view_cfg_of_phi (view_write_phi st mat v)).symm h

theorem Store.Positive.write_theta {st : Store} (h : st.Positive) (mat : Nat) (v : ℚ) :
    (st.write_theta mat v).Positive :=
  Store.Positive.of_view (view_cfg_of_angles (view_write_theta st mat v)).symm h

theorem theta_sweep_unrolled {integrate : Int → Int → Int} (hI : ExactAdvance integrate)
    (mat : Nat) :
    ∀ (c : Nat) (s : State), s.st.Positive → mat < s.st.cmc_mat.length →
      sweep_count (s.st.mat mat).constraint_theta (s.st.mat mat).constraint_theta_max
        (s.st.mat mat).constraint_theta_delta = c →
      ∃ N, ∀ fuel, N ≤ fuel →
        theta_sweep integrate mat fuel s
          = .returned (s.run (sweep_u (theta_body_u integrate mat) (theta_step_u mat) c)) := by
  intro c
  induction c with
  | zero =>
    intro s _ _ hc
    refine ⟨1, fun fuel hf => ?_⟩
    obtain ⟨f, rfl⟩ : ∃ f, fuel = f + 1 := ⟨fuel - 1, by omega⟩
    have : ¬ (s.st.mat mat).constraint_theta ≤ (s.st.mat mat).constraint_theta_max :=
      not_le.mpr (sweep_count_eq_zero hc)
    simp [theta_sweep, this, State.run_sweep_zero]
  | succ c ih =>
    intro s hpos hm hc
    have hd := hpos.theta_delta mat hm
    have hle : (s.st.mat mat).constraint_theta ≤ (s.st.mat mat).constraint_theta_max := by
      by_contra h
      rw [sweep_count_of_lt _ (not_le.mp h)] at hc
      exact Nat.succ_ne_zero _ hc.symm
    have hm0 : mat < (s.st.write_phi mat (s.st.mat mat).constraint_phi_min).cmc_mat.length := by
      rw [length_write_phi]; exact hm
    obtain ⟨N1, hN1⟩ := phi_sweep_returns hI mat
      (set_phi .phi_init mat (s.st.mat mat).constraint_phi_min s)
      hpos.partial_time hpos.delta_temperature
      ((hpos.write_phi mat (s.st.mat mat).constraint_phi_min).phi_delta mat hm0) hm0
    have hv := theta_body_u_view integrate mat s.st
    have hcv := view_cfg_of_phi hv
    have h1 : ((theta_body_u integrate mat s.st).1.mat mat).constraint_theta
        = (s.st.mat mat).constraint_theta := view_phi_theta hv mat
    have h2 : ((theta_body_u integrate mat s.st).1.mat mat).constraint_theta_max
        = (s.st.mat mat).constraint_theta_max := view_cfg_theta_max hcv mat
    have h3 : ((theta_body_u integrate mat s.st).1.mat mat).constraint_theta_delta
        = (s.st.mat mat).constraint_theta_delta := view_cfg_theta_delta hcv mat
    by_cases hbr : (s.st.mat mat).constraint_theta + (s.st.mat mat).constraint_theta_delta
        > (s.st.mat mat).constraint_theta_max
    · have hc0 : c = 0 := by
        rw [sweep_count_last hd hle hbr] at hc; omega
      subst hc0
      refine ⟨N1 + 1, fun fuel hf => ?_⟩
      obtain ⟨f, rfl⟩ : ∃ f, fuel = f + 1 := ⟨fuel - 1, by omega⟩
      simp only [theta_sweep, hle, if_true, hN1 f (by omega), Outcome.bind, theta_body_eq_run,
        State.run_st, h1, h2, h3, hbr, Nat.zero_add, State.run_sweep_one]
    · have hle2 := not_lt.mp hbr
      rw [sweep_count_succ hd hle2] at hc
      have hvs := theta_step_u_view mat (theta_body_u integrate mat s.st).1
      have hcfg : ((s.run (theta_body_u integrate mat)).run (theta_step_u mat)).st.view blank_all
          = s.st.view blank_all := by
        rw [State.run_st, State.run_st, view_cfg_of_angles hvs, hcv]
      have hm1 : mat < (theta_body_u integrate mat s.st).1.cmc_mat.length := by
        rw [view_length hv]; exact hm
      have hm2 : mat
          < ((s.run (theta_body_u integrate mat)).run (theta_step_u mat)).st.cmc_mat.length := by
        rw [view_length hcfg]; exact hm
      have hth : (((s.run (theta_body_u integrate mat)).run (theta_step_u mat)).st.mat mat)
          = { (theta_body_u integrate mat s.st).1.mat mat with constraint_theta :=
              (s.st.mat mat).constraint_theta + (s.st.mat mat).constraint_theta_delta } := by
        rw [State.run_st, State.run_st]
        simp only [theta_step_u, record_fst]
        rw [mat_write_theta_self hm1]
        simp [h1, h3]
      obtain ⟨N2, hN2⟩ := ih ((s.run (theta_body_u integrate mat)).run (theta_step_u mat))
        (Store.Positive.of_view hcfg.symm hpos) hm2 (by rw [hth]; simpa [h2, h3] using hc)
      refine ⟨max N1 N2 + 1, fun fuel hf => ?_⟩
      obtain ⟨f, rfl⟩ : ∃ f, fuel = f + 1 := ⟨fuel - 1, by omega⟩
      obtain ⟨c', rfl⟩ : ∃ c', c = c' + 1 := by
        have := sweep_count_pos (d := (s.st.mat mat).constraint_theta_delta) hle2
        exact ⟨c - 1, by omega⟩
      simp only [theta_sweep, hle, if_true, hN1 f (by omega), Outcome.bind, theta_body_eq_run,
        State.run_st, h1, h2, h3, hbr, if_false]
      have e := theta_step_eq_run mat (s.run (theta_body_u integrate mat))
      simp only [State.run_st, h1, h3] at e
      rw [e, hN2 f (by omega), State.run_sweep_succ_succ]

theorem theta_sweep_returns {integrate : Int → Int → Int} (hI : ExactAdvance integrate)
    (mat : Nat) (s : State) (hpos : s.st.Positive) (hm : mat < s.st.cmc_mat.length) :
    ∃ N, ∀ fuel, N ≤ fuel →
      theta_sweep integrate mat fuel s = .returned (s.run (theta_sweep_u integrate mat)) :=
  theta_sweep_unrolled hI mat _ s hpos hm rfl

theorem theta_sweep_u_view (integrate : Int → Int → Int) (mat : Nat) (st : Store) :
    (theta_sweep_u integrate mat st).1.view (blank_angles mat) = st.view (blank_angles mat) :=
  sweep_u_view (fun st => st.view (blank_angles mat))
    (fun st => view_angles_of_phi (theta_body_u_view integrate mat st))
    (theta_step_u_view mat) _ st

/-! ## The material loop and the whole function -/

theorem material_body_u_view (integrate : Int → Int → Int) (mat : Nat) (st : Store) :
    (material_body_u integrate mat st).1.view (blank_angles mat) = st.view (blank_angles mat) := by
  simp only [material_body_u, Run.next_fst, record_fst, theta_sweep_u_view, view_write_theta]

theorem material_body_eq_run (integrate : Int → Int → Int) (mat : Nat) (s : State) :
    (set_theta .theta_init mat ((emit .cout_material mat s).st.mat mat).constraint_theta_min
        (emit .cout_material mat s)).run (theta_sweep_u integrate mat)
      = s.run (material_body_u integrate mat) := by
  simp [set_theta, emit, State.run, material_body_u, Run.next, record]

theorem State.run_material_succ (s : State) (integrate : Int → Int → Int) (k mat : Nat) :
    s.run (material_loop_u integrate (k + 1) mat)
      = (s.run (material_body_u integrate mat)).run (material_loop_u integrate k (mat + 1)) := by
  simp [State.run, material_loop_u, List.append_assoc]

theorem material_loop_unrolled {integrate : Int → Int → Int} (hI : ExactAdvance integrate) :
    ∀ (k mat : Nat) (s : State), s.st.Positive → s.st.cmc_mat.length = s.st.num_materials →
      mat + k = s.st.num_materials →
      ∃ N, ∀ fuel, N ≤ fuel →
        material_loop integrate fuel mat s
          = .returned (s.run (material_loop_u integrate k mat)) := by
  intro k
  induction k with
  | zero =>
    intro mat s _ _ hk
    refine ⟨1, fun fuel hf => ?_⟩
    obtain ⟨f, rfl⟩ : ∃ f, fuel = f + 1 := ⟨fuel - 1, by omega⟩
    have : ¬ mat < s.st.num_materials := by omega
    cases s
    simp [material_loop, this, State.run, material_loop_u]
  | succ k ih =>
    intro mat s hpos hlen hk
    have hlt : mat < s.st.num_materials := by omega
    have hm : mat < s.st.cmc_mat.length := by omega
    obtain ⟨N1, hN1⟩ := theta_sweep_returns hI mat
      (set_theta .theta_init mat ((emit .cout_material mat s).st.mat mat).constraint_theta_min
        (emit .cout_material mat s))
      (hpos.write_theta mat _) (by
        show mat < (s.st.write_theta mat _).cmc_mat.length
        rw [length_write_theta]; exact hm)
    have hv := view_cfg_of_angles (material_body_u_view integrate mat s.st)
    obtain ⟨N2, hN2⟩ := ih (mat + 1) (s.run (material_body_u integrate mat))
      (Store.Positive.of_view hv.symm hpos)
      (by rw [State.run_st, view_length hv, base_num_materials (view_base hv)]; exact hlen)
      (by rw [State.run_st, base_num_materials (view_base hv)]; omega)
    refine ⟨max N1 N2 + 1, fun fuel hf => ?_⟩
    obtain ⟨f, rfl⟩ : ∃ f, fuel = f + 1 := ⟨fuel - 1, by omega⟩
    simp only [material_loop, hlt, if_true, hN1 f (by omega), Outcome.bind,
      material_body_eq_run, hN2 f (by omega), State.run_material_succ]

theorem length_resize (l : List cmc_material_t) (n : Nat) (ctor : cmc_material_t) :
    (resize l n ctor).length = n := by
  simp only [resize, List.length_append, List.length_take, List.length_replicate]
  omega

theorem length_resized (st : Store) (ctor : cmc_material_t) :
    (st.resized ctor).cmc_mat.length = st.num_materials := length_resize _ _ _

theorem hybrid_cmc_returns {integrate : Int → Int → Int} (hI : ExactAdvance integrate)
    (ctor : cmc_material_t) (s : State) (h4 : s.st.integrator = 4)
    (hpos : (s.st.resized ctor).Positive) :
    ∃ N, ∀ fuel, N ≤ fuel →
      hybrid_cmc integrate ctor fuel s = .returned (s.run (hybrid_cmc_u integrate ctor)) := by
  obtain ⟨N, hN⟩ := material_loop_unrolled hI s.st.num_materials 0
    (s.run (prologue_u ctor)) hpos (length_resized s.st ctor) (by simp [prologue_u, Store.resized])
  refine ⟨N, fun fuel hf => ?_⟩
  have e : s.run (hybrid_cmc_u integrate ctor)
      = (s.run (prologue_u ctor)).run
          (material_loop_u integrate s.st.num_materials 0) := by
    simp [State.run, hybrid_cmc_u, prologue_u, Store.resized, List.append_assoc]
  rw [e, ← hN fuel hf]
  by_cases hc : s.st.err_check = true
  · simp [hybrid_cmc, hc, h4, emit, State.run, prologue_u]
  · cases s
    simp_all [hybrid_cmc, emit, State.run, prologue_u]

/-! ## The keys of the unrolled run -/

@[simp] theorem keys_nil : keys [] = [] := rfl

@[simp] theorem keys_append (a b : List Entry) : keys (a ++ b) = keys a ++ keys b := by
  simp [keys, List.filterMap_append]

theorem progression_succ (lo d : ℚ) (n : Nat) :
    progression lo d (n + 1) = lo :: progression (lo + d) d n := by
  simp only [progression, List.range_succ_eq_map, List.map_cons, List.map_map]
  refine congrArg₂ _ (by simp) (List.map_congr_left fun k _ => ?_)
  simp only [Function.comp, Nat.succ_eq_add_one]
  push_cast
  ring

theorem sampling_u_keys (integrate : Int → Int → Int) (mat : Nat) (k : Nat) (st : Store) :
    keys (iterate_u (sample_step_u integrate mat) k st).2
      = (sampling_calls st.base k).map fun ev =>
          Key.call ev mat (st.mat mat).constraint_theta (st.mat mat).constraint_phi
            st.temperature := by
  induction k generalizing st with
  | zero => rfl
  | succ k ih =>
    rw [iterate_u_succ, Run.next_snd, keys_append, ih]
    simp only [sampling_calls, List.replicate_succ, List.flatten_cons, List.map_append]
    rfl

theorem temperature_iter_u_keys (integrate : Int → Int → Int) (mat : Nat) (st : Store) :
    keys (temperature_iter_u integrate mat st).2
      = (iteration_calls st.base (sample_count st.loop_time st.partial_time)).map fun ev =>
          Key.call ev mat (st.mat mat).constraint_theta (st.mat mat).constraint_phi
            st.temperature := by
  simp only [temperature_iter_u, Run.next_snd, Run.next_fst, record_fst, record_snd,
    keys_append, sampling_u_keys, iteration_calls, List.map_append, sampling_u_fst]
  rfl

theorem temperature_run_keys (integrate : Int → Int → Int) (mat : Nat) (n : Nat) (st : Store) :
    keys (iterate_u (temperature_iter_u integrate mat) n st).2
      = temperature_keys st.base mat (st.mat mat).constraint_theta (st.mat mat).constraint_phi
          (progression st.temperature st.delta_temperature n) := by
  induction n generalizing st with
  | zero => rfl
  | succ n ih =>
    have hv := temperature_iter_u_view integrate mat keep_all st
    rw [iterate_u_succ, Run.next_snd, keys_append, ih, temperature_iter_u_keys,
      temperature_iter_u_temperature, view_all_mat hv mat, view_base hv,
      base_delta_temperature (view_base hv), progression_succ]
    simp only [temperature_keys, List.flatMap_cons]
    rfl

theorem temperature_loop_u_keys (integrate : Int → Int → Int) (mat : Nat) (st : Store) :
    keys (temperature_loop_u integrate mat st).2
      = temperature_keys st.base mat (st.mat mat).constraint_theta (st.mat mat).constraint_phi
          (progression st.temperature st.delta_temperature
            (sweep_count st.temperature st.Tmax st.delta_temperature)) :=
  temperature_run_keys integrate mat _ st

theorem visited_thetas_congr {a b : cmc_material_t} {i : Nat}
    (h : blank_all i a = blank_all i b) : visited_thetas a = visited_thetas b := by
  have h1 := congrArg cmc_material_t.constraint_theta_min h
  have h2 := congrArg cmc_material_t.constraint_theta_max h
  have h3 := congrArg cmc_material_t.constraint_theta_delta h
  simp only [blank_all] at h1 h2 h3
  simp only [visited_thetas, h1, h2, h3]

theorem filterMap_keys {β : Type} (f : Entry → Option β) (g : Key → Option β)
    (h : ∀ e, f e = (e.key).bind g) (l : List Entry) :
    l.filterMap f = (keys l).filterMap g := by
  rw [keys, List.filterMap_filterMap]
  exact List.filterMap_congr fun e _ => h e

theorem cmcmc_inits_eq (l : List Entry) : cmcmc_inits l = (keys l).filterMap Key.init_of := by
  apply filterMap_keys
  intro e
  cases h : e.ev <;> simp [Entry.key, h, Key.init_of]

theorem sampling_u_events (integrate : Int → Int → Int) (mat : Nat) (k : Nat) (st : Store) :
    (iterate_u (sample_step_u integrate mat) k st).2.map Entry.ev = sampling_calls st k := by
  induction k generalizing st with
  | zero => rfl
  | succ k ih =>
    rw [iterate_u_succ, Run.next_snd, List.map_append, ih]
    simp only [sampling_calls, List.replicate_succ, List.flatten_cons]
    rfl

theorem count_integrate_sampling_calls (c : Store) (k : Nat) :
    (sampling_calls c k).count (Event.integrate c.partial_time) = k := by
  induction k with
  | zero => simp [sampling_calls]
  | succ k ih =>
    simp only [sampling_calls, List.replicate_succ, List.flatten_cons] at ih ⊢
    simp [List.count_cons, ih]

theorem count_mag_m_sampling_calls (c : Store) (k : Nat) :
    (sampling_calls c k).count Event.mag_m = k := by
  induction k with
  | zero => simp [sampling_calls]
  | succ k ih =>
    simp only [sampling_calls, List.replicate_succ, List.flatten_cons] at ih ⊢
    simp [List.count_cons, ih]

theorem sample_count_cast {r p : Int} (hp : 0 < p) (hr : 0 ≤ r) :
    ((sample_count r p : Nat) : ℤ) = ⌈(r : ℚ) / (p : ℚ)⌉ := by
  have hp' : (0 : ℚ) < p := by exact_mod_cast hp
  have hr' : (0 : ℚ) ≤ r := by exact_mod_cast hr
  have h : 0 ≤ ⌈(r : ℚ) / (p : ℚ)⌉ := Int.ceil_nonneg (div_nonneg hr' hp'.le)
  simp only [sample_count]
  exact Int.toNat_of_nonneg h

/-! ## The fatal exit -/

theorem bind_exited {o : Outcome} {k : State → Outcome} {s' : State}
    (h : o.bind k = .exited s') : o = .exited s' ∨ ∃ s1, o = .returned s1 ∧ k s1 = .exited s' := by
  cases o with
  | returned s1 => exact Or.inr ⟨s1, rfl, h⟩
  | exited s1 => exact Or.inl h
  | timeout s1 => cases h

theorem sampling_not_exited (integrate : Int → Int → Int) (mat : Nat) (start : Int) :
    ∀ (fuel : Nat) (s s' : State), sampling integrate mat start fuel s ≠ .exited s' := by
  intro fuel
  induction fuel with
  | zero => intro s s' h; cases h
  | succ f ih =>
    intro s s' h
    simp only [sampling] at h
    split at h
    · exact ih _ _ h
    · cases h

theorem temperature_loop_not_exited (integrate : Int → Int → Int) (mat : Nat) :
    ∀ (fuel : Nat) (s s' : State), temperature_loop integrate mat fuel s ≠ .exited s' := by
  intro fuel
  induction fuel with
  | zero => intro s s' h; cases h
  | succ f ih =>
    intro s s' h
    simp only [temperature_loop] at h
    split at h
    · rcases bind_exited h with h1 | ⟨s1, _, h1⟩
      · exact sampling_not_exited _ _ _ _ _ _ h1
      · exact ih _ _ h1
    · cases h

theorem phi_sweep_not_exited (integrate : Int → Int → Int) (mat : Nat) :
    ∀ (fuel : Nat) (s s' : State), phi_sweep integrate mat fuel s ≠ .exited s' := by
  intro fuel
  induction fuel with
  | zero => intro s s' h; cases h
  | succ f ih =>
    intro s s' h
    simp only [phi_sweep] at h
    split at h
    · rcases bind_exited h with h1 | ⟨s1, _, h1⟩
      · exact temperature_loop_not_exited _ _ _ _ _ h1
      · split at h1
        · cases h1
        · exact ih _ _ h1
    · cases h

theorem theta_sweep_not_exited (integrate : Int → Int → Int) (mat : Nat) :
    ∀ (fuel : Nat) (s s' : State), theta_sweep integrate mat fuel s ≠ .exited s' := by
  intro fuel
  induction fuel with
  | zero => intro s s' h; cases h
  | succ f ih =>
    intro s s' h
    simp only [theta_sweep] at h
    split at h
    · rcases bind_exited h with h1 | ⟨s1, _, h1⟩
      · exact phi_sweep_not_exited _ _ _ _ _ h1
      · split at h1
        · cases h1
        · exact ih _ _ h1
    · cases h

theorem material_loop_not_exited (integrate : Int → Int → Int) :
    ∀ (fuel mat : Nat) (s s' : State), material_loop integrate fuel mat s ≠ .exited s' := by
  intro fuel
  induction fuel with
  | zero => intro mat s s' h; cases h
  | succ f ih =>
    intro mat s s' h
    simp only [material_loop] at h
    split at h
    · rcases bind_exited h with h1 | ⟨s1, _, h1⟩
      · exact theta_sweep_not_exited _ _ _ _ _ h1
      · exact ih _ _ _ h1
    · cases h

theorem hybrid_cmc_exits (integrate : Int → Int → Int) (ctor : cmc_material_t) (fuel : Nat)
    (s : State) (h : s.st.integrator ≠ 4) :
    ∃ s' L, hybrid_cmc integrate ctor fuel s = .exited s' ∧ s'.st = s.st ∧
      s'.log = s.log ++ L ∧
      ∀ e ∈ L, (e.ev = Event.cout_called ∨ e.ev = Event.cerr_integrator) ∧ e.st = s.st := by
  by_cases hc : s.st.err_check = true
  · refine ⟨⟨s.st, s.log ++ [⟨.cout_called, 0, s.st⟩, ⟨.cerr_integrator, 0, s.st⟩]⟩,
      [⟨.cout_called, 0, s.st⟩, ⟨.cerr_integrator, 0, s.st⟩], ?_, rfl, rfl, ?_⟩
    · simp [hybrid_cmc, hc, h, emit, err_vexit]
    · intro e he
      simp only [List.mem_cons, List.mem_singleton, List.not_mem_nil, or_false] at he
      rcases he with rfl | rfl <;> simp
  · refine ⟨⟨s.st, s.log ++ [⟨.cerr_integrator, 0, s.st⟩]⟩,
      [⟨.cerr_integrator, 0, s.st⟩], ?_, rfl, rfl, ?_⟩
    · simp [hybrid_cmc, hc, h, emit, err_vexit]
    · intro e he
      simp only [List.mem_singleton] at he
      subst he
      simp

theorem hybrid_cmc_not_exited (integrate : Int → Int → Int) (ctor : cmc_material_t)
    (fuel : Nat) (s : State) (h : s.st.integrator = 4) (s' : State) :
    hybrid_cmc integrate ctor fuel s ≠ .exited s' := by
  intro he
  by_cases hc : s.st.err_check = true
  · have e : hybrid_cmc integrate ctor fuel s
        = material_loop integrate fuel 0
            { emit .cout_called 0 s with st := (emit .cout_called 0 s).st.resized ctor } := by
      simp [hybrid_cmc, hc, h, emit]
    rw [e] at he
    exact material_loop_not_exited _ _ _ _ _ he
  · have e : hybrid_cmc integrate ctor fuel s
        = material_loop integrate fuel 0 { s with st := s.st.resized ctor } := by
      simp [hybrid_cmc, hc, h]
    rw [e] at he
    exact material_loop_not_exited _ _ _ _ _ he

/-! ## Facts about the concrete inputs -/

theorem exact_integrate_exact : ExactAdvance exact_integrate := fun _ _ => rfl

theorem mat_mem {st : Store} {i : Nat} (h : i < st.cmc_mat.length) : st.mat i ∈ st.cmc_mat := by
  simp only [Store.mat, List.getD_eq_getElem?_getD, List.getElem?_eq_getElem h,
    Option.getD_some]
  exact List.getElem_mem h

theorem Store.Positive.of_forall_mem {st : Store} (hp : 0 < st.partial_time)
    (hT : 0 < st.delta_temperature)
    (hm : ∀ m ∈ st.cmc_mat, 0 < m.constraint_theta_delta ∧ 0 < m.constraint_phi_delta) :
    st.Positive :=
  ⟨hp, hT, fun _ hi => (hm _ (mat_mem hi)).1, fun _ hi => (hm _ (mat_mem hi)).2⟩

theorem state_scenario_positive : (state_scenario.st.resized material_single).Positive := by
  apply Store.Positive.of_forall_mem
  · decide
  · show (0 : ℚ) < 50
    norm_num
  · intro m hm
    have : m = material_single := by
      simpa [Store.resized, resize, state_scenario] using hm
    subst this
    constructor
    · show (0 : ℚ) < 1
      norm_num
    · show (0 : ℚ) < 1
      norm_num

/-! ## Reasoning about every point of a run, for every fuel -/

theorem Steps.returned {Q : Entry → Prop} {Post : Store → Prop} {s : State} (h : Post s.st) :
    Steps Q Post s (.returned s) :=
  ⟨[], by simp [Outcome.state], by simp, fun s1 h1 => by cases h1; exact h⟩

theorem Steps.timeout {Q : Entry → Prop} {Post : Store → Prop} (s : State) :
    Steps Q Post s (.timeout s) :=
  ⟨[], by simp [Outcome.state], by simp, fun s1 h1 => by cases h1⟩

theorem Steps.step {Q : Entry → Prop} {Post : Store → Prop} {s : State} {o : Outcome}
    (ev : Event) (mat : Nat) (st' : Store) (hq : Q ⟨ev, mat, st'⟩)
    (h : Steps Q Post (emit ev mat { s with st := st' }) o) : Steps Q Post s o := by
  obtain ⟨L, h1, h2, h3⟩ := h
  refine ⟨⟨ev, mat, st'⟩ :: L, ?_, ?_, h3⟩
  · rw [h1]; simp [emit]
  · intro e he
    rcases List.mem_cons.mp he with rfl | he
    · exact hq
    · exact h2 e he

theorem Steps.bind {Q : Entry → Prop} {P1 P2 : Store → Prop} {s : State} {o : Outcome}
    {k : State → Outcome} (h1 : Steps Q P1 s o)
    (h2 : ∀ s1, P1 s1.st → Steps Q P2 s1 (k s1)) : Steps Q P2 s (o.bind k) := by
  obtain ⟨L1, a1, b1, c1⟩ := h1
  cases o with
  | returned s1 =>
    obtain ⟨L2, a2, b2, c2⟩ := h2 s1 (c1 s1 rfl)
    refine ⟨L1 ++ L2, ?_, ?_, c2⟩
    · simp only [Outcome.bind]
      rw [a2]
      simp only [Outcome.state] at a1
      rw [a1, List.append_assoc]
    · intro e he
      rcases List.mem_append.mp he with he | he
      · exact b1 e he
      · exact b2 e he
  | exited s1 => exact ⟨L1, a1, b1, fun s2 h => by cases h⟩
  | timeout s1 => exact ⟨L1, a1, b1, fun s2 h => by cases h⟩

theorem Steps.weaken {Q : Entry → Prop} {P1 P2 : Store → Prop} {s : State} {o : Outcome}
    (h : Steps Q P1 s o) (hp : ∀ st, P1 st → P2 st) : Steps Q P2 s o := by
  obtain ⟨L, a, b, c⟩ := h
  exact ⟨L, a, b, fun s1 h1 => hp _ (c s1 h1)⟩

theorem Event.in_phi_of_temperature {ev : Event} (h : ev.in_temperature_loop = true) :
    ev.in_phi_sweep = true := by
  cases ev <;> first | rfl | cases h

theorem Event.in_theta_of_phi {ev : Event} (h : ev.in_phi_sweep = true) :
    ev.in_theta_sweep = true := by
  cases ev <;> first | rfl | cases h

theorem TempInv.good_entry {r : Store} {mat : Nat} {st : Store} (h : TempInv r mat st) (ev : Event) :
    Entry.Good r ⟨ev, mat, st⟩ :=
  ⟨h.outer.outer.view, fun _ => h.outer.outer.theta, fun _ => h.outer.phi,
    fun _ => h.temperature⟩

theorem PhiInv.good_between {r : Store} {mat : Nat} {st : Store} (h : PhiInv r mat st) {ev : Event}
    (hev : ev.in_temperature_loop = false) : Entry.Good r ⟨ev, mat, st⟩ :=
  ⟨h.outer.view, fun _ => h.outer.theta, fun _ => h.phi,
    fun h' => by rw [hev] at h'; cases h'⟩

theorem ThetaInv.good_outer {r : Store} {mat : Nat} {st : Store} (h : ThetaInv r mat st) {ev : Event}
    (hev : ev.in_phi_sweep = false) : Entry.Good r ⟨ev, mat, st⟩ :=
  ⟨h.view, fun _ => h.theta, fun h' => (by rw [hev] at h'; cases h'),
    fun h' => (by rw [Event.in_phi_of_temperature h'] at hev; cases hev)⟩

theorem TempInv.write_time {r : Store} {mat : Nat} {st : Store} (h : TempInv r mat st)
    (t : Int) : TempInv r mat (st.write_time t) :=
  ⟨⟨⟨h.outer.outer.view, h.outer.outer.idx, h.outer.outer.theta⟩, h.outer.phi⟩, h.temperature⟩

theorem PhiInv.write_temperature {r : Store} {mat : Nat} {st : Store} (h : PhiInv r mat st)
    (v : ℚ) : PhiInv r mat (st.write_temperature v) :=
  ⟨⟨h.outer.view, h.outer.idx, h.outer.theta⟩, h.phi⟩

theorem sampling_steps {Q : Entry → Prop} {P : Store → Prop} (integrate : Int → Int → Int)
    (mat : Nat) (start : Int) (hP : ∀ st t, P st → P (st.write_time t))
    (hQ : ∀ st ev, P st → Q ⟨ev, mat, st⟩) :
    ∀ (fuel : Nat) (s : State), P s.st → Steps Q P s (sampling integrate mat start fuel s) := by
  intro fuel
  induction fuel with
  | zero => intro s _; exact Steps.timeout s
  | succ f ih =>
    intro s hs
    simp only [sampling]
    split
    · have h1 := hP s.st (integrate s.st.partial_time s.st.time) hs
      refine Steps.step (.integrate s.st.partial_time) mat
        (s.st.write_time (integrate s.st.partial_time s.st.time)) (hQ _ _ h1) ?_
      refine Steps.step .mag_m mat
        (s.st.write_time (integrate s.st.partial_time s.st.time)) (hQ _ _ h1) ?_
      exact ih _ h1
    · exact Steps.returned hs

theorem temperature_loop_steps (integrate : Int → Int → Int) (r : Store) (mat : Nat) :
    ∀ (fuel : Nat) (s : State), TempInv r mat s.st →
      Steps (Entry.Good r) (TempInv r mat) s (temperature_loop integrate mat fuel s) := by
  intro fuel
  induction fuel with
  | zero => intro s _; exact Steps.timeout s
  | succ f ih =>
    intro s hs
    simp only [temperature_loop]
    split
    · rename_i hle
      have h1 : TempInv r mat (s.st.write_time (integrate s.st.equilibration_time s.st.time))
          ∧ (s.st.write_time (integrate s.st.equilibration_time s.st.time)).temperature
            ≤ (s.st.write_time (integrate s.st.equilibration_time s.st.time)).Tmax :=
        ⟨hs.write_time _, hle⟩
      refine Steps.step (.integrate s.st.equilibration_time) mat
        (s.st.write_time (integrate s.st.equilibration_time s.st.time)) (h1.1.good_entry _) ?_
      refine Steps.step .mag_m_reset mat
        (s.st.write_time (integrate s.st.equilibration_time s.st.time)) (h1.1.good_entry _) ?_
      refine Steps.bind
        (sampling_steps (P := fun st => TempInv r mat st ∧ st.temperature ≤ st.Tmax)
          integrate mat _ (fun st t h => ⟨h.1.write_time t, h.2⟩)
          (fun st ev h => h.1.good_entry ev) f _ h1) ?_
      intro s3 h3
      refine Steps.step .data mat s3.st (h3.1.good_entry _) ?_
      have h5 : TempInv r mat
          (s3.st.write_temperature (s3.st.temperature + s3.st.delta_temperature)) := by
        refine ⟨h3.1.outer.write_temperature _, fun hr => ?_⟩
        have hw := h3.1.temperature hr
        have h0 : 0 ≤ s3.st.delta_temperature := hr.1
        have hT : s3.st.temperature ≤ s3.st.Tmax := h3.2
        have hlo : s3.st.Tmin ≤ s3.st.temperature := hw.1
        constructor
        · show s3.st.Tmin ≤ s3.st.temperature + s3.st.delta_temperature
          linarith
        · show s3.st.temperature + s3.st.delta_temperature
            ≤ s3.st.Tmax + s3.st.delta_temperature
          linarith
      refine Steps.step .temperature_step mat
        (s3.st.write_temperature (s3.st.temperature + s3.st.delta_temperature)) (h5.good_entry _) ?_
      exact ih _ h5
    · exact Steps.returned hs

theorem PhiInv.of_write_phi {r : Store} {mat : Nat} {st : Store} (h : ThetaInv r mat st) (v : ℚ)
    (hv : sound_range (st.mat mat).constraint_phi_min (st.mat mat).constraint_phi_max
      (st.mat mat).constraint_phi_delta →
      within (st.mat mat).constraint_phi_min (st.mat mat).constraint_phi_max
        (st.mat mat).constraint_phi_delta v) :
    PhiInv r mat (st.write_phi mat v) := by
  have hrec := mat_write_phi_self h.idx v
  refine ⟨⟨?_, ?_, ?_⟩, ?_⟩
  · rw [view_cfg_of_phi (view_write_phi st mat v)]; exact h.view
  · rw [length_write_phi]; exact h.idx
  · rw [hrec]; exact h.theta
  · rw [hrec]; exact hv

theorem ThetaInv.of_write_theta {r : Store} {mat : Nat} {st : Store}
    (hview : st.view blank_all = r.view blank_all) (hidx : mat < st.cmc_mat.length) (v : ℚ)
    (hv : sound_range (st.mat mat).constraint_theta_min (st.mat mat).constraint_theta_max
      (st.mat mat).constraint_theta_delta →
      within (st.mat mat).constraint_theta_min (st.mat mat).constraint_theta_max
        (st.mat mat).constraint_theta_delta v) :
    ThetaInv r mat (st.write_theta mat v) := by
  have hrec := mat_write_theta_self hidx v
  refine ⟨?_, ?_, ?_⟩
  · rw [view_cfg_of_angles (view_write_theta st mat v)]; exact hview
  · rw [length_write_theta]; exact hidx
  · rw [hrec]; exact hv

theorem within_start {lo hi d : ℚ} (h : sound_range lo hi d) : within lo hi d lo :=
  ⟨le_refl lo, h.2⟩

theorem within_next {lo hi d x : ℚ} (h : sound_range lo hi d) (hx : within lo hi d x)
    (hle : x + d ≤ hi) : within lo hi d (x + d) := by
  have h0 : 0 ≤ d := h.1
  have h1 : lo ≤ x := hx.1
  exact ⟨by linarith, by linarith⟩

theorem phi_sweep_steps (integrate : Int → Int → Int) (r : Store) (mat : Nat) :
    ∀ (fuel : Nat) (s : State), PhiInv r mat s.st →
      Steps (Entry.Good r) (PhiInv r mat) s (phi_sweep integrate mat fuel s) := by
  intro fuel
  induction fuel with
  | zero => intro s _; exact Steps.timeout s
  | succ f ih =>
    intro s hs
    simp only [phi_sweep]
    split
    · refine Steps.step .CMCMCinit mat s.st (hs.good_between rfl) ?_
      have h2 : TempInv r mat (s.st.write_temperature s.st.Tmin) :=
        ⟨hs.write_temperature _, fun hr => within_start hr⟩
      refine Steps.step .temperature_init mat (s.st.write_temperature s.st.Tmin) (h2.good_entry _) ?_
      refine Steps.bind (temperature_loop_steps integrate r mat f _ h2) ?_
      intro s3 h3
      split
      · exact Steps.returned h3.outer
      · rename_i hbr
        have h4 : PhiInv r mat (s3.st.write_phi mat
            ((s3.st.mat mat).constraint_phi + (s3.st.mat mat).constraint_phi_delta)) :=
          PhiInv.of_write_phi h3.outer.outer _
            (fun hr => within_next hr (h3.outer.phi hr) (not_lt.mp hbr))
        refine Steps.step .phi_step mat _ (h4.good_between rfl) ?_
        exact ih _ h4
    · exact Steps.returned hs

theorem theta_sweep_steps (integrate : Int → Int → Int) (r : Store) (mat : Nat) :
    ∀ (fuel : Nat) (s : State), ThetaInv r mat s.st →
      Steps (Entry.Good r) (ThetaInv r mat) s (theta_sweep integrate mat fuel s) := by
  intro fuel
  induction fuel with
  | zero => intro s _; exact Steps.timeout s
  | succ f ih =>
    intro s hs
    simp only [theta_sweep]
    split
    · have h1 : PhiInv r mat (s.st.write_phi mat (s.st.mat mat).constraint_phi_min) :=
        PhiInv.of_write_phi hs _ (fun hr => within_start hr)
      refine Steps.step .phi_init mat _ (h1.good_between rfl) ?_
      refine Steps.bind (phi_sweep_steps integrate r mat f _ h1) ?_
      intro s2 h2
      split
      · exact Steps.returned h2.outer
      · rename_i hbr
        have h3 : ThetaInv r mat (s2.st.write_theta mat
            ((s2.st.mat mat).constraint_theta + (s2.st.mat mat).constraint_theta_delta)) :=
          ThetaInv.of_write_theta h2.outer.view h2.outer.idx _
            (fun hr => within_next hr (h2.outer.theta hr) (not_lt.mp hbr))
        refine Steps.step .theta_step mat _ (h3.good_outer rfl) ?_
        exact ih _ h3
    · exact Steps.returned hs

theorem material_loop_steps (integrate : Int → Int → Int) (r : Store) :
    ∀ (fuel mat : Nat) (s : State),
      s.st.view blank_all = r.view blank_all ∧ s.st.cmc_mat.length = s.st.num_materials →
      Steps (Entry.Good r)
        (fun st => st.view blank_all = r.view blank_all ∧ st.cmc_mat.length = st.num_materials)
        s (material_loop integrate fuel mat s) := by
  intro fuel
  induction fuel with
  | zero => intro mat s _; exact Steps.timeout s
  | succ f ih =>
    intro mat s hs
    simp only [material_loop]
    split
    · rename_i hlt
      have hidx : mat < s.st.cmc_mat.length := by rw [hs.2]; exact hlt
      refine Steps.step .cout_material mat s.st
        ⟨hs.1, ⟨fun h => (by cases h), fun h => (by cases h), fun h => (by cases h)⟩⟩ ?_
      have h2 : ThetaInv r mat (s.st.write_theta mat (s.st.mat mat).constraint_theta_min) :=
        ThetaInv.of_write_theta hs.1 hidx _ (fun hr => within_start hr)
      refine Steps.step .theta_init mat _ (h2.good_outer rfl) ?_
      refine Steps.bind (theta_sweep_steps integrate r mat f _ h2) ?_
      intro s3 h3
      refine ih (mat + 1) s3 ⟨h3.view, ?_⟩
      have hv : s3.st.view blank_all = s.st.view blank_all := h3.view.trans hs.1.symm
      rw [view_length hv, base_num_materials (view_base hv)]
      exact hs.2
    · exact Steps.returned hs

theorem hybrid_cmc_steps (integrate : Int → Int → Int) (ctor : cmc_material_t) (fuel : Nat)
    (s : State) :
    ∃ L, (hybrid_cmc integrate ctor fuel s).state.log = s.log ++ L ∧
      ∀ e ∈ L, (e.ev = Event.cout_called ∨ e.ev = Event.cerr_integrator)
        ∨ Entry.Good (s.st.resized ctor) e := by
  by_cases h4 : s.st.integrator = 4
  · by_cases hc : s.st.err_check = true
    · have e : hybrid_cmc integrate ctor fuel s
          = material_loop integrate fuel 0
              ⟨s.st.resized ctor, s.log ++ [⟨.cout_called, 0, s.st⟩]⟩ := by
        simp [hybrid_cmc, hc, h4, emit]
      obtain ⟨L, h1, h2, _⟩ := material_loop_steps integrate (s.st.resized ctor) fuel 0
        ⟨s.st.resized ctor, s.log ++ [⟨.cout_called, 0, s.st⟩]⟩
        ⟨rfl, length_resized s.st ctor⟩
      refine ⟨⟨.cout_called, 0, s.st⟩ :: L, ?_, ?_⟩
      · rw [e, h1]; simp
      · intro x hx
        rcases List.mem_cons.mp hx with rfl | hx
        · exact Or.inl (Or.inl rfl)
        · exact Or.inr (h2 x hx)
    · have e : hybrid_cmc integrate ctor fuel s
          = material_loop integrate fuel 0 ⟨s.st.resized ctor, s.log⟩ := by
        simp [hybrid_cmc, hc, h4]
      obtain ⟨L, h1, h2, _⟩ := material_loop_steps integrate (s.st.resized ctor) fuel 0
        ⟨s.st.resized ctor, s.log⟩ ⟨rfl, length_resized s.st ctor⟩
      exact ⟨L, by rw [e, h1], fun x hx => Or.inr (h2 x hx)⟩
  · obtain ⟨s', L, h1, _, h3, h4'⟩ := hybrid_cmc_exits integrate ctor fuel s h4
    exact ⟨L, by rw [h1]; exact h3, fun x hx => Or.inl (h4' x hx).1⟩

theorem not_in_theta_of_diag {e : Entry}
    (h : e.ev = Event.cout_called ∨ e.ev = Event.cerr_integrator) :
    e.ev.in_theta_sweep = false := by
  rcases h with h | h <;> rw [h] <;> rfl

theorem state_0_10_7_mat (i : Nat) :
    (state_0_10_7.st.resized material_0_10_7).mat i = material_0_10_7
      ∨ (state_0_10_7.st.resized material_0_10_7).mat i = cmc_material_t.zero := by
  cases i with
  | zero => exact Or.inl rfl
  | succ i => exact Or.inr rfl

/-! ## Order of the collaborator calls -/

theorem iterate_u_rel {R : Store → Run → Prop} (hR : Composable R) {f : Store → Run}
    (hf : ∀ st, R st (f st)) : ∀ (n : Nat) (st : Store), R st (iterate_u f n st) := by
  intro n
  induction n with
  | zero => intro st; exact hR.nil st
  | succ n ih =>
    intro st
    rw [iterate_u_succ]
    exact hR.next st (f st) (iterate_u f n) (hf st) (ih _)

@[simp] theorem cmcmc_inits_nil : cmcmc_inits [] = [] := rfl

theorem temperature_loop_u_no_inits (integrate : Int → Int → Int) (mat : Nat) (st : Store) :
    cmcmc_inits (temperature_loop_u integrate mat st).2 = [] := by
  have h := temperature_loop_u_keys integrate mat st
  rw [cmcmc_inits_eq, h]
  simp only [temperature_keys, List.filterMap_flatMap]
  apply List.flatMap_eq_nil_iff.mpr
  intro T _
  induction iteration_calls st.base (sample_count st.base.loop_time st.base.partial_time) with
  | nil => rfl
  | cons ev l ih => simp [Key.init_of]

theorem material_loop_u_length (integrate : Int → Int → Int) :
    ∀ (k mat : Nat) (st : Store),
      (material_loop_u integrate k mat st).1.cmc_mat.length = st.cmc_mat.length := by
  intro k
  induction k with
  | zero => intro mat st; rfl
  | succ k ih =>
    intro mat st
    rw [material_loop_u, Run.next_fst, ih, view_length (material_body_u_view integrate mat st)]

theorem last_store_append (st : Store) (A B : List Entry) :
    last_store st (A ++ B) = last_store (last_store st A) B := by
  induction A generalizing st with
  | nil => rfl
  | cons e A ih => exact ih e.st

theorem Linked.concat {P : Store → Entry → Prop} {st : Store} {A B : List Entry}
    (hA : Linked P st A) (hB : Linked P (last_store st A) B) : Linked P st (A ++ B) := by
  induction A generalizing st with
  | nil => exact hB
  | cons e A ih => exact ⟨hA.1, ih hA.2 hB⟩

theorem Linked.imp {P Q : Store → Entry → Prop} (h : ∀ st e, P st e → Q st e) {st : Store}
    {L : List Entry} (hL : Linked P st L) : Linked Q st L := by
  induction L generalizing st with
  | nil => trivial
  | cons e L ih => exact ⟨h _ _ hL.1, ih hL.2⟩

theorem Linked.view_all {st : Store} {L : List Entry} (hL : Linked Entry.writes_own st L) :
    (∀ e ∈ L, e.st.view blank_all = st.view blank_all) ∧
      (last_store st L).view blank_all = st.view blank_all := by
  induction L generalizing st with
  | nil => exact ⟨fun e he => (by cases he), rfl⟩
  | cons e L ih =>
    have h1 : e.st.view blank_all = st.view blank_all := view_cfg_of_angles hL.1
    obtain ⟨h2, h3⟩ := ih hL.2
    refine ⟨fun x hx => ?_, h3.trans h1⟩
    rcases List.mem_cons.mp hx with rfl | hx
    · exact h1
    · exact (h2 x hx).trans h1

theorem Entry.writes_own.others {prev : Store} {e : Entry} (h : e.writes_own prev) :
    e.leaves_others prev :=
  fun _ hi => view_angles_other h hi

theorem same_config_of_view {a b : Store} (h : a.view blank_all = b.view blank_all) :
    a.same_config b :=
  have hb := view_base h
  ⟨base_Tmin hb, base_Tmax hb, base_delta_temperature hb, base_equilibration_time hb,
    base_partial_time hb, base_loop_time hb, base_num_materials hb, base_integrator hb,
    view_length h, view_cfg_theta_min h, view_cfg_theta_max h, view_cfg_theta_delta h,
    view_cfg_phi_min h, view_cfg_phi_max h, view_cfg_phi_delta h⟩

theorem Trace.done {P : Store → Entry → Prop} (s : State) : Trace P s (.returned s) :=
  ⟨[], by simp [Outcome.state], trivial, rfl⟩

theorem Trace.out_of_fuel {P : Store → Entry → Prop} (s : State) : Trace P s (.timeout s) :=
  ⟨[], by simp [Outcome.state], trivial, rfl⟩

theorem Trace.emit_step {P : Store → Entry → Prop} {s : State} {o : Outcome}
    (ev : Event) (mat : Nat) (st' : Store) (hp : P s.st ⟨ev, mat, st'⟩)
    (h : Trace P (emit ev mat { s with st := st' }) o) : Trace P s o := by
  obtain ⟨L, h1, h2, h3⟩ := h
  refine ⟨⟨ev, mat, st'⟩ :: L, ?_, ⟨hp, h2⟩, h3⟩
  rw [h1]; simp [emit]

theorem Trace.seq {P : Store → Entry → Prop} {s : State} {o : Outcome}
    {k : State → Outcome} (h1 : Trace P s o) (h2 : ∀ s1, Trace P s1 (k s1)) :
    Trace P s (o.bind k) := by
  obtain ⟨L1, a1, b1, c1⟩ := h1
  cases o with
  | returned s1 =>
    obtain ⟨L2, a2, b2, c2⟩ := h2 s1
    simp only [Outcome.state] at a1 c1
    refine ⟨L1 ++ L2, ?_, b1.concat (by rw [← c1]; exact b2), ?_⟩
    · simp only [Outcome.bind]
      rw [a2, a1, List.append_assoc]
    · simp only [Outcome.bind]
      rw [c2, c1, last_store_append]
  | exited s1 => exact ⟨L1, a1, b1, c1⟩
  | timeout s1 => exact ⟨L1, a1, b1, c1⟩

theorem sampling_trace (integrate : Int → Int → Int) (mat : Nat) (start : Int) :
    ∀ (fuel : Nat) (s : State),
      Trace Entry.writes_own s (sampling integrate mat start fuel s) := by
  intro fuel
  induction fuel with
  | zero => intro s; exact Trace.out_of_fuel s
  | succ f ih =>
    intro s
    simp only [sampling]
    split
    · refine Trace.emit_step (.integrate s.st.partial_time) mat
        (s.st.write_time (integrate s.st.partial_time s.st.time))
        (view_write_time _ _ _) ?_
      refine Trace.emit_step .mag_m mat
        (s.st.write_time (integrate s.st.partial_time s.st.time)) rfl ?_
      exact ih _
    · exact Trace.done s

theorem temperature_loop_trace (integrate : Int → Int → Int) (mat : Nat) :
    ∀ (fuel : Nat) (s : State),
      Trace Entry.writes_own s (temperature_loop integrate mat fuel s) := by
  intro fuel
  induction fuel with
  | zero => intro s; exact Trace.out_of_fuel s
  | succ f ih =>
    intro s
    simp only [temperature_loop]
    split
    · refine Trace.emit_step (.integrate s.st.equilibration_time) mat
        (s.st.write_time (integrate s.st.equilibration_time s.st.time))
        (view_write_time _ _ _) ?_
      refine Trace.emit_step .mag_m_reset mat
        (s.st.write_time (integrate s.st.equilibration_time s.st.time)) rfl ?_
      refine Trace.seq (sampling_trace integrate mat _ f _) fun s3 => ?_
      refine Trace.emit_step .data mat s3.st rfl ?_
      refine Trace.emit_step .temperature_step mat
        (s3.st.write_temperature (s3.st.temperature + s3.st.delta_temperature))
        (view_write_temperature _ _ _) ?_
      exact ih _
    · exact Trace.done s

theorem phi_sweep_trace (integrate : Int → Int → Int) (mat : Nat) :
    ∀ (fuel : Nat) (s : State),
      Trace Entry.writes_own s (phi_sweep integrate mat fuel s) := by
  intro fuel
  induction fuel with
  | zero => intro s; exact Trace.out_of_fuel s
  | succ f ih =>
    intro s
    simp only [phi_sweep]
    split
    · refine Trace.emit_step .CMCMCinit mat s.st rfl ?_
      refine Trace.emit_step .temperature_init mat (s.st.write_temperature s.st.Tmin)
        (view_write_temperature _ _ _) ?_
      refine Trace.seq (temperature_loop_trace integrate mat f _) fun s3 => ?_
      split
      · exact Trace.done s3
      · refine Trace.emit_step .phi_step mat
          (s3.st.write_phi mat
            ((s3.st.mat mat).constraint_phi + (s3.st.mat mat).constraint_phi_delta))
          (view_angles_of_phi (view_write_phi _ _ _)) ?_
        exact ih _
    · exact Trace.done s

theorem theta_sweep_trace (integrate : Int → Int → Int) (mat : Nat) :
    ∀ (fuel : Nat) (s : State),
      Trace Entry.writes_own s (theta_sweep integrate mat fuel s) := by
  intro fuel
  induction fuel with
  | zero => intro s; exact Trace.out_of_fuel s
  | succ f ih =>
    intro s
    simp only [theta_sweep]
    split
    · refine Trace.emit_step .phi_init mat (s.st.write_phi mat (s.st.mat mat).constraint_phi_min)
        (view_angles_of_phi (view_write_phi _ _ _)) ?_
      refine Trace.seq (phi_sweep_trace integrate mat f _) fun s2 => ?_
      split
      · exact Trace.done s2
      · refine Trace.emit_step .theta_step mat
          (s2.st.write_theta mat
            ((s2.st.mat mat).constraint_theta + (s2.st.mat mat).constraint_theta_delta))
          (view_write_theta _ _ _) ?_
        exact ih _
    · exact Trace.done s

theorem material_loop_trace (integrate : Int → Int → Int) :
    ∀ (fuel mat : Nat) (s : State),
      Trace Entry.writes_own s (material_loop integrate fuel mat s) := by
  intro fuel
  induction fuel with
  | zero => intro mat s; exact Trace.out_of_fuel s
  | succ f ih =>
    intro mat s
    simp only [material_loop]
    split
    · refine Trace.emit_step .cout_material mat s.st rfl ?_
      refine Trace.emit_step .theta_init mat
        (s.st.write_theta mat (s.st.mat mat).constraint_theta_min)
        (view_write_theta _ _ _) ?_
      refine Trace.seq (theta_sweep_trace integrate mat f _) fun s3 => ?_
      exact ih _ _
    · exact Trace.done s

theorem resized_eq (st : Store) (ctor : cmc_material_t)
    (h : st.cmc_mat.length = st.num_materials) : st.resized ctor = st := by
  have e : resize st.cmc_mat st.num_materials ctor = st.cmc_mat := by
    simp [resize, ← h]
  simp only [Store.resized, e]

theorem hybrid_cmc_trace (integrate : Int → Int → Int) (ctor : cmc_material_t) (fuel : Nat)
    (s : State) (hlen : s.st.cmc_mat.length = s.st.num_materials) :
    Trace Entry.writes_own s (hybrid_cmc integrate ctor fuel s) := by
  by_cases h4 : s.st.integrator = 4
  · by_cases hc : s.st.err_check = true
    · have e : hybrid_cmc integrate ctor fuel s
          = material_loop integrate fuel 0 (emit .cout_called 0 { s with st := s.st }) := by
        simp [hybrid_cmc, hc, h4, emit, resized_eq s.st ctor hlen]
      rw [e]
      exact Trace.emit_step .cout_called 0 s.st rfl (material_loop_trace integrate fuel 0 _)
    · have e : hybrid_cmc integrate ctor fuel s = material_loop integrate fuel 0 s := by
        simp [hybrid_cmc, hc, h4, resized_eq s.st ctor hlen]
      rw [e]
      exact material_loop_trace integrate fuel 0 s
  · by_cases hc : s.st.err_check = true
    · exact ⟨[⟨.cout_called, 0, s.st⟩, ⟨.cerr_integrator, 0, s.st⟩],
        by simp [hybrid_cmc, hc, h4, emit, err_vexit, Outcome.state], ⟨rfl, rfl, trivial⟩,
        by simp [hybrid_cmc, hc, h4, emit, err_vexit, Outcome.state, last_store]⟩
    · exact ⟨[⟨.cerr_integrator, 0, s.st⟩],
        by simp [hybrid_cmc, hc, h4, emit, err_vexit, Outcome.state], ⟨rfl, trivial⟩,
        by simp [hybrid_cmc, hc, h4, emit, err_vexit, Outcome.state, last_store]⟩

/-! ## The sampling window, for every fuel -/

theorem sampling_m_eq (A : Arith) (integrate : Int → Int → Int) (mat : Nat) (start : Int)
    (lt0 : Int) (hw : A.wrap (lt0 + start) = lt0 + start) :
    ∀ (fuel : Nat) (s : State), s.st.loop_time = lt0 →
      sampling_m A integrate mat start fuel s = sampling integrate mat start fuel s := by
  intro fuel
  induction fuel with
  | zero => intro s _; rfl
  | succ f ih =>
    intro s hl
    rw [sampling_m, sampling, hl, hw]
    by_cases h : s.st.time < lt0 + start
    · rw [if_pos h, if_pos h]
      exact ih _ hl
    · rw [if_neg h, if_neg h]

/-- C6 as stated fails on the machine: at `sim::time = 2147483000` with
`loop_time = 1000` and `partial_time = 100` the `int` sum `loop_time + start_time` of
line 111 passes `INT_MAX` and wraps to `-2147483296`, the loop test fails at once and
the sampling phase makes no `sim::integrate(partial_time)` call, while
`⌈loop_time / partial_time⌉ = 10`. -/
theorem C6_sampling_count_counterexample :
    0 < state_late_start.st.partial_time ∧ 0 ≤ state_late_start.st.loop_time ∧
    ieee.wrap (state_late_start.st.loop_time + state_late_start.st.time) = -2147483296 ∧
    (∀ fuel, sampling_m ieee exact_integrate 0 state_late_start.st.time (fuel + 1)
        state_late_start = .returned state_late_start) ∧
    ⌈(state_late_start.st.loop_time : ℚ) / (state_late_start.st.partial_time : ℚ)⌉ = 10 := by
  refine ⟨by decide, by decide, by decide, fun fuel => ?_, by decide!⟩
  rw [sampling_m, if_neg (by decide)]

/-- C6 (amended): with exact advance, `partial_time > 0` and `loop_time ≥ 0`, if the
`int` sum `loop_time + start_time` of line 111 does not overflow (the machine delivers
it unchanged), then the sampling phase entered at `start_time = sim::time` (lines
108-119) returns, its calls are pairs `sim::integrate(partial_time)`,
`stats::mag_m()`, and the number of `sim::integrate(partial_time)` calls and the
number of `stats::mag_m()` calls both equal `⌈loop_time / partial_time⌉`. -/
theorem C6_sampling_count (A : Arith) {integrate : Int → Int → Int}
    (hI : ExactAdvance integrate) (mat : Nat) (s : State) (hp : 0 < s.st.partial_time)
    (hl : 0 ≤ s.st.loop_time)
    (hw : A.wrap (s.st.loop_time + s.st.time) = s.st.loop_time + s.st.time) :
    ∃ N, ∀ fuel, N ≤ fuel → ∃ s' L,
      sampling_m A integrate mat s.st.time fuel s = .returned s' ∧ s'.log = s.log ++ L ∧
      (∃ k : Nat, L.map Entry.ev
          = (List.replicate k [Event.integrate s.st.partial_time, Event.mag_m]).flatten) ∧
      (((L.map Entry.ev).count (Event.integrate s.st.partial_time) : Nat) : ℤ)
        = ⌈(s.st.loop_time : ℚ) / (s.st.partial_time : ℚ)⌉ ∧
      (((L.map Entry.ev).count Event.mag_m : Nat) : ℤ)
        = ⌈(s.st.loop_time : ℚ) / (s.st.partial_time : ℚ)⌉ := by
  have h := sampling_unrolled hI mat s.st.time
    (sample_count s.st.loop_time s.st.partial_time) s hp
    (by rw [add_sub_cancel_right])
  refine ⟨sample_count s.st.loop_time s.st.partial_time + 1, fun fuel hf => ?_⟩
  rw [sampling_m_eq A integrate mat s.st.time s.st.loop_time hw fuel s rfl]
  refine ⟨_, _, h fuel (by omega), rfl, ⟨_, sampling_u_events integrate mat _ s.st⟩, ?_, ?_⟩
  · rw [sampling_u_events, count_integrate_sampling_calls, sample_count_cast hp hl]
  · rw [sampling_u_events, count_mag_m_sampling_calls, sample_count_cast hp hl]

/-- Witness of C6 with the arithmetic of `int`: a window of 3 time units in steps of 2
takes `⌈3 / 2⌉` sampling steps. -/
theorem C6_sampling_count_witness :
    ∃ N, ∀ fuel, N ≤ fuel → ∃ s' L,
      sampling_m ieee exact_integrate 0 state_scenario.st.time fuel state_scenario
        = .returned s' ∧
      s'.log = state_scenario.log ++ L ∧
      (∃ k : Nat, L.map Entry.ev
          = (List.replicate k
              [Event.integrate state_scenario.st.partial_time, Event.mag_m]).flatten) ∧
      (((L.map Entry.ev).count (Event.integrate state_scenario.st.partial_time) : Nat) : ℤ)
        = ⌈(state_scenario.st.loop_time : ℚ) / (state_scenario.st.partial_time : ℚ)⌉ ∧
      (((L.map Entry.ev).count Event.mag_m : Nat) : ℤ)
        = ⌈(state_scenario.st.loop_time : ℚ) / (state_scenario.st.partial_time : ℚ)⌉ :=
  C6_sampling_count ieee exact_integrate_exact 0 state_scenario (by decide) (by decide)
    (by decide)

/-- C7: if `sim::integrator` is not 4, `hybrid_cmc` ends in `err::vexit()` with the
store (constraint table, temperature, time and all the rest) as it was on entry,
having logged nothing but the diagnostic lines, each on the unchanged store: no
collaborator call, no resize, no write; if `sim::integrator` is 4 the fatal exit is
never taken. This holds for every fuel and every integrator behaviour. -/
theorem C7_integrator_check (integrate : Int → Int → Int) (ctor : cmc_material_t)
    (fuel : Nat) (s : State) :
    (s.st.integrator ≠ 4 →
      ∃ s' L, hybrid_cmc integrate ctor fuel s = .exited s' ∧ s'.st = s.st ∧
        s'.log = s.log ++ L ∧
        ∀ e ∈ L, (e.ev = Event.cout_called ∨ e.ev = Event.cerr_integrator) ∧ e.st = s.st) ∧
    (s.st.integrator = 4 → ∀ s', hybrid_cmc integrate ctor fuel s ≠ .exited s') := by
  exact ⟨hybrid_cmc_exits integrate ctor fuel s,
    fun h s' => hybrid_cmc_not_exited integrate ctor fuel s h s'⟩

/-- Witness of C7: integrator kind 3 exits at once, integrator kind 4 never does. -/
theorem C7_integrator_check_witness :
    (∃ s' L, hybrid_cmc exact_integrate material_single 9 state_wrong_integrator = .exited s' ∧
        s'.st = state_wrong_integrator.st ∧ s'.log = state_wrong_integrator.log ++ L ∧
        ∀ e ∈ L, (e.ev = Event.cout_called ∨ e.ev = Event.cerr_integrator)
          ∧ e.st = state_wrong_integrator.st) ∧
    ∀ s', hybrid_cmc exact_integrate material_single 9 state_scenario ≠ .exited s' :=
  ⟨(C7_integrator_check exact_integrate material_single 9 state_wrong_integrator).1 (by decide),
    (C7_integrator_check exact_integrate material_single 9 state_scenario).2 rfl⟩

/-- Counterexample of C9 as stated: the bounds fail for a range that is empty by more
than one step (the assignment `theta = theta_min`, resp. `phi = phi_min`, already lies
above `max + delta`) and for a negative step (the angle falls below its minimum). -/
theorem C9_angle_range_counterexample :
    (∃ e ∈ (hybrid_cmc exact_integrate material_single 9
          (state_of_table [material_theta_empty, material_phi_empty])).state.log,
        e.ev = Event.theta_init ∧
        ¬ e.theta ≤ (e.st.mat e.mat).constraint_theta_max
            + (e.st.mat e.mat).constraint_theta_delta) ∧
    (∃ e ∈ (hybrid_cmc exact_integrate material_single 9
          (state_of_table [material_theta_empty, material_phi_empty])).state.log,
        e.ev = Event.phi_init ∧
        ¬ e.phi ≤ (e.st.mat e.mat).constraint_phi_max
            + (e.st.mat e.mat).constraint_phi_delta) ∧
    (∃ e ∈ (hybrid_cmc exact_integrate material_single 9
          (state_of_table [material_theta_backward])).state.log,
        e.ev = Event.theta_step ∧ ¬ (e.st.mat e.mat).constraint_theta_min ≤ e.theta) ∧
    (∃ e ∈ (hybrid_cmc exact_integrate material_single 9
          (state_of_table [material_phi_backward])).state.log,
        e.ev = Event.phi_step ∧ ¬ (e.st.mat e.mat).constraint_phi_min ≤ e.phi) := by
  refine ⟨?_, ?_, ?_, ?_⟩ <;> decide!

/-- C9 (amended): for every fuel and every integrator behaviour, at every entry of the
log recorded from the assignment `theta = theta_min` on until the theta sweep of its
material ends, if that material has `theta_delta ≥ 0` and
`theta_min ≤ theta_max + theta_delta` then
`theta_min ≤ constraint_theta ≤ theta_max + theta_delta`; and at every entry recorded
during a phi sweep, if `phi_delta ≥ 0` and `phi_min ≤ phi_max + phi_delta` then
`phi_min ≤ constraint_phi ≤ phi_max + phi_delta`. -/
theorem C9_angle_range (integrate : Int → Int → Int) (ctor : cmc_material_t) (fuel : Nat)
    (s : State) :
    ∃ L, (hybrid_cmc integrate ctor fuel s).state.log = s.log ++ L ∧
      ∀ e ∈ L,
        (e.ev.in_theta_sweep = true →
          0 ≤ ((s.st.resized ctor).mat e.mat).constraint_theta_delta →
          ((s.st.resized ctor).mat e.mat).constraint_theta_min
            ≤ ((s.st.resized ctor).mat e.mat).constraint_theta_max
              + ((s.st.resized ctor).mat e.mat).constraint_theta_delta →
          ((s.st.resized ctor).mat e.mat).constraint_theta_min ≤ e.theta ∧
          e.theta ≤ ((s.st.resized ctor).mat e.mat).constraint_theta_max
              + ((s.st.resized ctor).mat e.mat).constraint_theta_delta) ∧
        (e.ev.in_phi_sweep = true →
          0 ≤ ((s.st.resized ctor).mat e.mat).constraint_phi_delta →
          ((s.st.resized ctor).mat e.mat).constraint_phi_min
            ≤ ((s.st.resized ctor).mat e.mat).constraint_phi_max
              + ((s.st.resized ctor).mat e.mat).constraint_phi_delta →
          ((s.st.resized ctor).mat e.mat).constraint_phi_min ≤ e.phi ∧
          e.phi ≤ ((s.st.resized ctor).mat e.mat).constraint_phi_max
              + ((s.st.resized ctor).mat e.mat).constraint_phi_delta) := by
  obtain ⟨L, h1, h2⟩ := hybrid_cmc_steps integrate ctor fuel s
  refine ⟨L, h1, fun e he => ?_⟩
  rcases h2 e he with hd | hg
  · have h0 := not_in_theta_of_diag hd
    constructor
    · intro h; rw [h0] at h; cases h
    · intro h; rw [Event.in_theta_of_phi h] at h0; cases h0
  · have hv := hg.view
    constructor
    · intro hin h0 hle
      have e1 := view_cfg_theta_min hv e.mat
      have e2 := view_cfg_theta_max hv e.mat
      have e3 := view_cfg_theta_delta hv e.mat
      have hw := hg.range.theta hin ⟨by rw [e3]; exact h0, by rw [e1, e2, e3]; exact hle⟩
      have hw1 : (e.st.mat e.mat).constraint_theta_min ≤ e.theta := hw.1
      have hw2 : e.theta ≤ (e.st.mat e.mat).constraint_theta_max
          + (e.st.mat e.mat).constraint_theta_delta := hw.2
      rw [e1] at hw1
      rw [e2, e3] at hw2
      exact ⟨hw1, hw2⟩
    · intro hin h0 hle
      have e1 := view_cfg_phi_min hv e.mat
      have e2 := view_cfg_phi_max hv e.mat
      have e3 := view_cfg_phi_delta hv e.mat
      have hw := hg.range.phi hin ⟨by rw [e3]; exact h0, by rw [e1, e2, e3]; exact hle⟩
      have hw1 : (e.st.mat e.mat).constraint_phi_min ≤ e.phi := hw.1
      have hw2 : e.phi ≤ (e.st.mat e.mat).constraint_phi_max
          + (e.st.mat e.mat).constraint_phi_delta := hw.2
      rw [e1] at hw1
      rw [e2, e3] at hw2
      exact ⟨hw1, hw2⟩

/-- Witness of C9 on the material `0 / 10 / 7`: its range is sound, so theta stays
within its bounds at every entry of the theta sweep. -/
theorem C9_angle_range_witness :
    ∃ L, (hybrid_cmc exact_integrate material_0_10_7 9 state_0_10_7).state.log
        = state_0_10_7.log ++ L ∧
      ∀ e ∈ L, e.ev.in_theta_sweep = true →
        ((state_0_10_7.st.resized material_0_10_7).mat e.mat).constraint_theta_min ≤ e.theta ∧
        e.theta ≤ ((state_0_10_7.st.resized material_0_10_7).mat e.mat).constraint_theta_max
          + ((state_0_10_7.st.resized material_0_10_7).mat e.mat).constraint_theta_delta := by
  obtain ⟨L, h1, h2⟩ := C9_angle_range exact_integrate material_0_10_7 9 state_0_10_7
  refine ⟨L, h1, fun e he hin => (h2 e he).1 hin ?_ ?_⟩
  · rcases state_0_10_7_mat e.mat with h | h <;> rw [h] <;>
      simp [material_0_10_7, cmc_material_t.zero]
  · rcases state_0_10_7_mat e.mat with h | h <;> rw [h] <;>
      norm_num [material_0_10_7, cmc_material_t.zero]

/-- C15: with the integrator kind 4, exact advance, `partial_time > 0`,
`delta_temperature > 0` and `theta_delta > 0`, `phi_delta > 0` for every material,
`hybrid_cmc` terminates: from some amount of fuel on every run returns, with the same
final state, whatever the range bounds, `loop_time` and `equilibration_time` are; in
particular no run with that much fuel ends in a timeout or in the fatal exit. -/
theorem C15_terminates {integrate : Int → Int → Int} (hI : ExactAdvance integrate)
    (ctor : cmc_material_t) (s : State) (h4 : s.st.integrator = 4)
    (hpos : (s.st.resized ctor).Positive) :
    ∃ s' N, ∀ fuel, N ≤ fuel →
      hybrid_cmc integrate ctor fuel s = .returned s' ∧
      (∀ t, hybrid_cmc integrate ctor fuel s ≠ .timeout t) ∧
      (∀ t, hybrid_cmc integrate ctor fuel s ≠ .exited t) := by
  obtain ⟨N, hN⟩ := hybrid_cmc_returns hI ctor s h4 hpos
  refine ⟨_, N, fun fuel hf => ⟨hN fuel hf, fun t h => ?_, fun t h => ?_⟩⟩
  · rw [hN fuel hf] at h; cases h
  · rw [hN fuel hf] at h; cases h

/-- Witness of C15 on the scenario with three temperature values. -/
theorem C15_terminates_witness :
    ∃ s' N, ∀ fuel, N ≤ fuel →
      hybrid_cmc exact_integrate material_single fuel state_scenario = .returned s' ∧
      (∀ t, hybrid_cmc exact_integrate material_single fuel state_scenario ≠ .timeout t) ∧
      (∀ t, hybrid_cmc exact_integrate material_single fuel state_scenario ≠ .exited t) :=
  C15_terminates exact_integrate_exact material_single state_scenario rfl
    state_scenario_positive

/-- C11: for a table already sized to `num_materials`, whatever the integrator does
and however far the run gets (every fuel; return, fatal exit or timeout), the store
`hybrid_cmc` has reached and every snapshot of its log have the run configuration and
the sweep bounds of the start: `Tmin`, `Tmax`, `delta_temperature`,
`equilibration_time`, `partial_time`, `loop_time`, `num_materials`, the integrator
kind, the table size and every material's `theta_min`, `theta_max`, `theta_delta`,
`phi_min`, `phi_max`, `phi_delta`; and every event recorded while material `m` is the
loop variable leaves the record of every other material exactly as the event before
it left it, so that the angles of the other materials are not written. -/
theorem C11_frame (integrate : Int → Int → Int) (ctor : cmc_material_t) (fuel : Nat)
    (s : State) (hlen : s.st.cmc_mat.length = s.st.num_materials) :
    ∃ L, (hybrid_cmc integrate ctor fuel s).state.log = s.log ++ L ∧
      (hybrid_cmc integrate ctor fuel s).state.st = last_store s.st L ∧
      (hybrid_cmc integrate ctor fuel s).state.st.same_config s.st ∧
      (∀ s', hybrid_cmc integrate ctor fuel s = .returned s' → s'.st.same_config s.st) ∧
      (∀ e ∈ L, e.st.same_config s.st) ∧
      Linked Entry.leaves_others s.st L := by
  obtain ⟨L, h1, h2, h3⟩ := hybrid_cmc_trace integrate ctor fuel s hlen
  obtain ⟨h4, h5⟩ := h2.view_all
  have h6 : (hybrid_cmc integrate ctor fuel s).state.st.same_config s.st := by
    rw [h3]; exact same_config_of_view h5
  refine ⟨L, h1, h3, h6, fun s' hs' => ?_, fun e he => same_config_of_view (h4 e he),
    h2.imp fun _ _ h => h.others⟩
  rw [hs'] at h6
  exact h6

/-- Witness of C11 on the scenario with one material, run with fuel 6. -/
theorem C11_frame_witness :
    ∃ L, (hybrid_cmc exact_integrate material_single 6 state_scenario).state.log
        = state_scenario.log ++ L ∧
      (hybrid_cmc exact_integrate material_single 6 state_scenario).state.st
        = last_store state_scenario.st L ∧
      (hybrid_cmc exact_integrate material_single 6 state_scenario).state.st.same_config
        state_scenario.st ∧
      (∀ s', hybrid_cmc exact_integrate material_single 6 state_scenario = .returned s' →
        s'.st.same_config state_scenario.st) ∧
      (∀ e ∈ L, e.st.same_config state_scenario.st) ∧
      Linked Entry.leaves_others state_scenario.st L :=
  C11_frame exact_integrate material_single 6 state_scenario rfl

end program
